import Mathlib

/-!
Verification of the Samba `smb.conf` parse–mutate–rebuild core
(`src/services/samba_service.py`).

Strings are modelled as `List Char` (`Str`), Python dicts as ordered
association lists with replace-in-place insertion (`dinsert`), matching
CPython dict semantics (assignment to an existing key keeps its position,
new keys are appended).  `parse_shares`, `format_share_config`,
`_rebuild_config_content`, `user_share_exists`, `add_user_share`,
`remove_user_share` and `update_user_share` are translated line by line
from the source.
-/

set_option maxRecDepth 4000

abbrev Str := List Char

abbrev Cfg := List (Str × Str)

abbrev Shares := List (Str × Cfg)

/-- Python's whitespace class used by `str.strip()`. -/
def isPySpace (c : Char) : Bool :=
  c == ' ' || c == '\t' || c == '\n' || c == '\r' || c == '\x0b' || c == '\x0c'

/-- Python `str.strip()`: drop leading and trailing whitespace. -/
def pyStrip (s : Str) : Str :=
  ((s.dropWhile isPySpace).reverse.dropWhile isPySpace).reverse

/-- Python `str.split(sep)` for a one-character separator. -/
def pySplit (sep : Char) : Str → List Str
  | [] => [[]]
  | c :: rest =>
    if c = sep then [] :: pySplit sep rest
    else
      match pySplit sep rest with
      | [] => [[c]]
      | h :: t => (c :: h) :: t

/-- Python `sep.join(parts)` for a one-character separator. -/
def pyJoin (sep : Char) : List Str → Str
  | [] => []
  | [x] => x
  | x :: y :: xs => x ++ sep :: pyJoin sep (y :: xs)

/-- Python dict assignment `d[k] = v`: replace in place, else append. -/
def dinsert {β : Type} (k : Str) (v : β) : List (Str × β) → List (Str × β)
  | [] => [(k, v)]
  | (k', v') :: rest => if k' = k then (k, v) :: rest else (k', v') :: dinsert k v rest

/-- Python dict lookup `d[k]` / `d.get(k)`. -/
def dlookup {β : Type} (k : Str) : List (Str × β) → Option β
  | [] => none
  | (k', v) :: rest => if k' = k then some v else dlookup k rest

/-- Python `k in d`. -/
def hasKey {β : Type} (k : Str) (m : List (Str × β)) : Bool :=
  (dlookup k m).isSome

/-- Python `del d[k]` (keys are unique in the dicts this code builds). -/
def ddel {β : Type} (k : Str) (m : List (Str × β)) : List (Str × β) :=
  m.filter (fun kv => kv.1 ≠ k)

/-- Apply `f` to the value stored at `k`, in place. -/
def dmodify {β : Type} (k : Str) (f : β → β) : List (Str × β) → List (Str × β)
  | [] => []
  | (k', v) :: rest => if k' = k then (k', f v) :: rest else (k', v) :: dmodify k f rest

/-- Python `d.update(patch)`: assign every patch pair in order. -/
def dupdate (c : Cfg) (patch : Cfg) : Cfg :=
  patch.foldl (fun acc kv => dinsert kv.1 kv.2 acc) c

/-- `line.startswith('[') and line.endswith(']')` — the header shape test
    used by both the parser and the rebuilder. -/
abbrev isHeaderLine (l : Str) : Prop := ['['] <+: l ∧ [']'] <:+ l

/-- `line.startswith('[global]')` — the parser's special case. -/
abbrev isGlobalPre (l : Str) : Prop := ("[global]".toList) <+: l

/-- `line[1:-1]` — the bracketed section name. -/
def headerName (l : Str) : Str := (l.drop 1).dropLast

/-- The key of a `key = value` line: text before the first `=`, stripped
    (`line.split('=', 1)[0].strip()`). -/
def parseKey (line : Str) : Str :=
  pyStrip (line.takeWhile (fun c => c ≠ '='))

/-- The value of a `key = value` line: text after the first `=`, stripped
    (`line.split('=', 1)[1].strip()`). -/
def parseVal (line : Str) : Str :=
  pyStrip ((line.dropWhile (fun c => c ≠ '=')).drop 1)

/-- The list `['global', 'printers', 'print$', 'homes', 'netlogon',
    'profiles']` hard-coded in `_rebuild_config_content`. -/
def reservedRebuild : List Str :=
  ["global".toList, "printers".toList, "print$".toList, "homes".toList,
   "netlogon".toList, "profiles".toList]

/-- The spec's `ReservedSectionNames` policy set, which also includes
    `main` (the list at `list_samba_users`, line 645). -/
def reservedSectionNames : List Str :=
  reservedRebuild ++ ["main".toList]

/-- The loop state of `parse_shares`: accumulated shares, the current
    section name (`[]` plays the role of Python's falsy `None`/`""`),
    and the current section's settings. -/
structure ParseState where
  shares : Shares
  cur : Str
  cfg : Cfg
deriving DecidableEq

/-- One iteration of the `for line in lines` loop of `parse_shares`. -/
def parseStep (st : ParseState) (raw : Str) : ParseState :=
  let line := pyStrip raw
  if isHeaderLine line ∧ ¬ isGlobalPre line then
    { shares := if st.cur ≠ [] ∧ st.cfg ≠ [] then dinsert st.cur st.cfg st.shares else st.shares
      cur := headerName line
      cfg := [] }
  else if st.cur ≠ [] ∧ '=' ∈ line then
    { st with cfg := dinsert (parseKey line) (parseVal line) st.cfg }
  else st

/-- The final `if current_share and current_config` save of `parse_shares`. -/
def parseFinish (st : ParseState) : Shares :=
  if st.cur ≠ [] ∧ st.cfg ≠ [] then dinsert st.cur st.cfg st.shares else st.shares

/-- `SambaService.parse_shares` (lines 97–135). -/
def parse_shares (content : Str) : Shares :=
  parseFinish ((pySplit '\n' content).foldl parseStep ⟨[], [], []⟩)

/-- One `   key = value` line of `format_share_config`. -/
def formatShareLine (k v : Str) : Str :=
  "   ".toList ++ k ++ " = ".toList ++ v

/-- `SambaService.format_share_config` (lines 137–151). -/
def format_share_config (name : Str) (cfg : Cfg) : Str :=
  pyJoin '\n' (('[' :: name ++ [']']) :: cfg.map (fun kv => formatShareLine kv.1 kv.2))

/-- The line-scanning loop of `_rebuild_config_content` (lines 367–388):
    drop every line of a user-share section (header included), keep
    everything else verbatim. -/
def rebuildLines : Bool → List Str → List Str
  | _, [] => []
  | inS, raw :: rest =>
    let line := pyStrip raw
    if isHeaderLine line then
      if headerName line ∉ reservedRebuild then rebuildLines true rest
      else raw :: rebuildLines false rest
    else if inS then rebuildLines true rest
    else raw :: rebuildLines false rest

/-- The trailing `for share_name, config in shares.items()` loop of
    `_rebuild_config_content` (lines 391–394): a blank line plus the
    formatted share, for every non-reserved entry. -/
def rebuildAppendix (shares : Shares) : List Str :=
  (shares.map (fun nc =>
    if nc.1 ∈ reservedRebuild then [] else [[], format_share_config nc.1 nc.2])).flatten

/-- `SambaService._rebuild_config_content` (lines 351–396). -/
def rebuild_config_content (original : Str) (shares : Shares) : Str :=
  pyJoin '\n' (rebuildLines false (pySplit '\n' original) ++ rebuildAppendix shares)

/-- `SambaService.user_share_exists` (lines 292–307), on a given document. -/
def user_share_exists (content : Str) (username : Str) : Bool :=
  hasKey username (parse_shares content)

/-- The new-share dict literal of `add_user_share` (lines 187–194). -/
def newShareConfig (username path browseable create_mask directory_mask : Str) : Cfg :=
  [("path".toList, path), ("valid users".toList, username), ("read only".toList, "no".toList),
   ("browseable".toList, browseable), ("create mask".toList, create_mask),
   ("directory mask".toList, directory_mask)]

/-- `SambaService.add_user_share` (lines 153–209), as a pure function of
    the document text: returns the success flag and the written text
    (the unchanged text on failure).  `writable` and `guest_ok` are
    accepted, as in the source, but never used. -/
def add_user_share (content username path : Str)
    (browseable : Str := "yes".toList) (writable : Str := "yes".toList)
    (guest_ok : Str := "no".toList) (create_mask : Str := "0660".toList)
    (directory_mask : Str := "0770".toList) : Bool × Str :=
  if user_share_exists content username then (false, content)
  else
    (true, rebuild_config_content content
      (dinsert username (newShareConfig username path browseable create_mask directory_mask)
        (parse_shares content)))

/-- `SambaService.remove_user_share` (lines 211–249), as a pure function
    of the document text. -/
def remove_user_share (content username : Str) : Bool × Str :=
  if ¬ user_share_exists content username then (false, content)
  else
    let shares := parse_shares content
    (true, rebuild_config_content content
      (if hasKey username shares then ddel username shares else shares))

/-- `SambaService.update_user_share` (lines 251–290), as a pure function
    of the document text; `patch` stands for the `**kwargs` dict. -/
def update_user_share (content username : Str) (patch : Cfg) : Bool × Str :=
  if ¬ user_share_exists content username then (false, content)
  else
    let shares := parse_shares content
    (true, rebuild_config_content content
      (if hasKey username shares then dmodify username (fun c => dupdate c patch) shares
       else shares))

/-- The in-memory mutation step of `add_user_share`: fail if the name is
    already a key of the map, else insert the fixed six-key section. -/
def add_share_map (m : Shares) (username path browseable create_mask directory_mask : Str) :
    Shares :=
  if hasKey username m then m
  else dinsert username (newShareConfig username path browseable create_mask directory_mask) m

/-- The in-memory mutation step of `remove_user_share`. -/
def remove_share_map (m : Shares) (username : Str) : Shares :=
  if hasKey username m then ddel username m else m

/-- The in-memory mutation step of `update_user_share`
    (`shares[username].update(kwargs)`, lines 277–278). -/
def update_share_map (m : Shares) (username : Str) (patch : Cfg) : Shares :=
  if hasKey username m then dmodify username (fun c => dupdate c patch) m else m

/-- A share mutation, for stating properties of operation sequences.
    `add` carries the full Python argument list, unused arguments
    included. -/
inductive ShareOp where
  | add (username path browseable writable guest_ok create_mask directory_mask : Str)
  | remove (username : Str)
  | update (username : Str) (patch : Cfg)

/-- Apply one mutation to the in-memory section map. -/
def applyOp (m : Shares) : ShareOp → Shares
  | .add u p b _w _g cm dm => add_share_map m u p b cm dm
  | .remove u => remove_share_map m u
  | .update u patch => update_share_map m u patch

/-- Apply a sequence of mutations to the in-memory section map. -/
def applyOps (ops : List ShareOp) (m : Shares) : Shares :=
  ops.foldl applyOp m

/-- The keys of an association list. -/
def dkeys {β : Type} (m : List (Str × β)) : List Str :=
  m.map Prod.fst

/-- Fold `dinsert` over a list of entries (repeated dict assignment). -/
def dinsertList {β : Type} (entries : List (Str × β)) (m : List (Str × β)) : List (Str × β) :=
  entries.foldl (fun acc nc => dinsert nc.1 nc.2 acc) m

/-- The `if current_share and current_config` guard as a 0/1-element list. -/
def secEmit (cur : Str) (cfg : Cfg) : List (Str × Cfg) :=
  if cur ≠ [] ∧ cfg ≠ [] then [(cur, cfg)] else []

/-- The sequence of completed sections the parser loop emits, in
    completion order (a reformulation of `parse_shares` proved
    equivalent below). -/
def secsAux : List Str → Str → Cfg → List (Str × Cfg)
  | [], cur, cfg => secEmit cur cfg
  | raw :: rest, cur, cfg =>
    let line := pyStrip raw
    if isHeaderLine line ∧ ¬ isGlobalPre line then
      secEmit cur cfg ++ secsAux rest (headerName line) []
    else if cur ≠ [] ∧ '=' ∈ line then
      secsAux rest cur (dinsert (parseKey line) (parseVal line) cfg)
    else secsAux rest cur cfg

/-- The parser's `(current_share, current_config)` transition for one line. -/
def stStep (s : Str × Cfg) (raw : Str) : Str × Cfg :=
  let line := pyStrip raw
  if isHeaderLine line ∧ ¬ isGlobalPre line then (headerName line, [])
  else if s.1 ≠ [] ∧ '=' ∈ line then (s.1, dinsert (parseKey line) (parseVal line) s.2)
  else s

/-- The parser's `(current_share, current_config)` state after a line list. -/
def stAux (L : List Str) (s : Str × Cfg) : Str × Cfg :=
  L.foldl stStep s

/-- Sections completed strictly inside a line list (no end-of-input close). -/
def emAux : List Str → Str × Cfg → List (Str × Cfg)
  | [], _ => []
  | raw :: rest, s =>
    let line := pyStrip raw
    if isHeaderLine line ∧ ¬ isGlobalPre line then
      secEmit s.1 s.2 ++ emAux rest (headerName line, [])
    else if s.1 ≠ [] ∧ '=' ∈ line then
      emAux rest (s.1, dinsert (parseKey line) (parseVal line) s.2)
    else emAux rest s

/-- Reserved entries of a trace or map. -/
def filterReserved (t : List (Str × Cfg)) : List (Str × Cfg) :=
  t.filter (fun nc => nc.1 ∈ reservedRebuild)

/-- Non-reserved (user-share) entries of a trace or map. -/
def filterUserShares (t : List (Str × Cfg)) : List (Str × Cfg) :=
  t.filter (fun nc => nc.1 ∉ reservedRebuild)

/-- The appendix of `_rebuild_config_content` viewed as individual lines. -/
def appendixLines (m : Shares) : List Str :=
  ((filterUserShares m).map (fun nc =>
    [] :: ('[' :: nc.1 ++ [']']) :: nc.2.map (fun kv => formatShareLine kv.1 kv.2))).flatten

/-- A value that survives the format/parse round trip: newline-free and
    already stripped. -/
def cleanVal (v : Str) : Prop := '\n' ∉ v ∧ pyStrip v = v

/-- A section name that survives the format/parse round trip: nonempty
    (Python truthiness), newline-free, and whose header line does not
    trip the parser's `[global]` prefix test. -/
def cleanName (n : Str) : Prop :=
  n ≠ [] ∧ '\n' ∉ n ∧ ¬ isGlobalPre ('[' :: n ++ [']'])

/-- A key/value pair that survives the format/parse round trip. -/
def cleanKV (k v : Str) : Prop :=
  '\n' ∉ k ∧ '\n' ∉ v ∧ '=' ∉ k ∧ pyStrip k = k ∧ pyStrip v = v ∧
    ¬ (['['] <+: k ∧ [']'] <:+ v)

/-- A section body that survives the round trip: nonempty (else the
    parser drops the section), distinct keys, clean pairs. -/
def cleanCfg (c : Cfg) : Prop :=
  c ≠ [] ∧ (dkeys c).Nodup ∧ ∀ kv ∈ c, cleanKV kv.1 kv.2

/-- A section map whose rebuilt text reparses to the same sections. -/
def cleanShares (m : Shares) : Prop :=
  (dkeys m).Nodup ∧ ∀ nc ∈ m, cleanName nc.1 ∧ cleanCfg nc.2

/-- Mutations that stay inside the user-share domain and use clean data. -/
def cleanOp : ShareOp → Prop
  | .add u p b _w _g cm dm =>
    u ∉ reservedRebuild ∧ cleanName u ∧ cleanVal u ∧ cleanVal p ∧ cleanVal b ∧
      cleanVal cm ∧ cleanVal dm
  | .remove u => u ∉ reservedRebuild
  | .update u patch =>
    u ∉ reservedRebuild ∧ (dkeys patch).Nodup ∧ ∀ kv ∈ patch, cleanKV kv.1 kv.2

/-- No line of the list starts (after stripping) with `[global]`. -/
def noGlobLine (L : List Str) : Prop :=
  ∀ raw ∈ L, ¬ isGlobalPre (pyStrip raw)

/-- A document in which the `[global]` header, if present, is exactly
    `[global]` and is the first section header of the file. -/
def wfDocLines (L : List Str) : Prop :=
  noGlobLine L ∨
    ∃ L₁ g L₂, L = L₁ ++ g :: L₂ ∧ (∀ raw ∈ L₁, ¬ isHeaderLine (pyStrip raw)) ∧
      pyStrip g = "[global]".toList ∧ noGlobLine L₂

/-- Well-formedness of a document for the rebuild invariant. -/
def wfDoc (content : Str) : Prop :=
  wfDocLines (pySplit '\n' content)

instance cleanValDecidable (v : Str) : Decidable (cleanVal v) := by
  unfold cleanVal
  infer_instance

instance cleanNameDecidable (n : Str) : Decidable (cleanName n) := by
  unfold cleanName
  infer_instance

instance cleanKVDecidable (k v : Str) : Decidable (cleanKV k v) := by
  unfold cleanKV
  infer_instance

instance cleanCfgDecidable (c : Cfg) : Decidable (cleanCfg c) := by
  unfold cleanCfg
  infer_instance

instance cleanSharesDecidable (m : Shares) : Decidable (cleanShares m) := by
  unfold cleanShares
  infer_instance

instance cleanOpDecidable (op : ShareOp) : Decidable (cleanOp op) := by
  cases op
  all_goals
    unfold cleanOp
    infer_instance

instance noGlobLineDecidable (L : List Str) : Decidable (noGlobLine L) := by
  unfold noGlobLine
  infer_instance

/-! ### Basic facts about `pyStrip` -/

theorem pyStrip_sublist (s : Str) : (pyStrip s).Sublist s := by
  unfold pyStrip
  have h1 : ((s.dropWhile isPySpace).reverse.dropWhile isPySpace).Sublist
      (s.dropWhile isPySpace).reverse := List.dropWhile_sublist isPySpace
  have h2 : (((s.dropWhile isPySpace).reverse.dropWhile isPySpace).reverse).Sublist
      (s.dropWhile isPySpace) := by
    simpa using h1.reverse
  exact h2.trans (List.dropWhile_sublist isPySpace)

theorem mem_of_mem_pyStrip {a : Char} {s : Str} (h : a ∈ pyStrip s) : a ∈ s :=
  (pyStrip_sublist s).subset h

theorem dropWhile_head_false {p : Char → Bool} :
    ∀ {l : Str} {a : Char} {t : Str}, l.dropWhile p = a :: t → p a = false := by
  intro l
  induction l with
  | nil => intro a t h; simp [List.dropWhile] at h
  | cons c cs ih =>
    intro a t h
    rw [List.dropWhile_cons] at h
    by_cases hc : p c
    · rw [if_pos hc] at h; exact ih h
    · rw [if_neg hc] at h
      cases h
      simpa using hc

theorem dropWhile_eq_self_of_head {p : Char → Bool} {l : Str}
    (h : ∀ a t, l = a :: t → p a = false) : l.dropWhile p = l := by
  cases l with
  | nil => rfl
  | cons a t => rw [List.dropWhile_cons, h a t rfl]; simp

theorem pyStrip_eq_self_of {s : Str}
    (h1 : ∀ a t, s = a :: t → isPySpace a = false)
    (h2 : ∀ a, s.getLast? = some a → isPySpace a = false) :
    pyStrip s = s := by
  have hd : s.dropWhile isPySpace = s := dropWhile_eq_self_of_head h1
  have hr : s.reverse.dropWhile isPySpace = s.reverse := by
    apply dropWhile_eq_self_of_head
    intro a t h
    apply h2
    rw [← List.head?_reverse, h]
    rfl
  rw [pyStrip, hd, hr, List.reverse_reverse]

theorem pyStrip_of_dropWhile {s : Str} (h : pyStrip s = s) :
    s.dropWhile isPySpace = s := by
  have hsub : (s.dropWhile isPySpace).Sublist s := List.dropWhile_sublist isPySpace
  apply hsub.eq_of_length
  have h1 : s.length ≤ (s.dropWhile isPySpace).length := by
    conv_lhs => rw [← h]
    unfold pyStrip
    rw [List.length_reverse]
    calc ((s.dropWhile isPySpace).reverse.dropWhile isPySpace).length
        ≤ (s.dropWhile isPySpace).reverse.length :=
          (List.dropWhile_sublist isPySpace).length_le
      _ = (s.dropWhile isPySpace).length := List.length_reverse _
  exact le_antisymm hsub.length_le h1

theorem pyStrip_of_dropWhile_reverse {s : Str} (h : pyStrip s = s) :
    s.reverse.dropWhile isPySpace = s.reverse := by
  have hd := pyStrip_of_dropWhile h
  have : pyStrip s = (s.reverse.dropWhile isPySpace).reverse := by
    rw [pyStrip, hd]
  rw [h] at this
  have := congrArg List.reverse this
  simpa using this.symm

theorem dropWhile_suffix_list (p : Char → Bool) (l : Str) :
    ∃ z, l = z ++ l.dropWhile p := by
  induction l with
  | nil => exact ⟨[], rfl⟩
  | cons c cs ih =>
    rw [List.dropWhile_cons]
    by_cases hc : p c
    · rw [if_pos hc]
      obtain ⟨z, hz⟩ := ih
      exact ⟨c :: z, by simp [hz.symm]⟩
    · rw [if_neg hc]
      exact ⟨[], rfl⟩

theorem pyStrip_head_false {s : Str} {a : Char} {t : Str}
    (h : pyStrip s = a :: t) : isPySpace a = false := by
  unfold pyStrip at h
  have hXne : (s.dropWhile isPySpace).reverse.dropWhile isPySpace ≠ [] := by
    intro hemp
    rw [hemp] at h
    simp at h
  have hx : ((s.dropWhile isPySpace).reverse.dropWhile isPySpace).getLast? = some a := by
    rw [← List.head?_reverse, h]; rfl
  obtain ⟨z, hz⟩ := dropWhile_suffix_list isPySpace (s.dropWhile isPySpace).reverse
  have hlast : (s.dropWhile isPySpace).reverse.getLast? = some a := by
    rw [hz, List.getLast?_append_of_ne_nil z hXne]
    exact hx
  rw [List.getLast?_reverse] at hlast
  cases hhead : s.dropWhile isPySpace with
  | nil => rw [hhead] at hlast; simp at hlast
  | cons b bs =>
    rw [hhead] at hlast
    simp at hlast
    subst hlast
    exact dropWhile_head_false hhead

theorem pyStrip_last_false {s : Str} {a : Char}
    (h : (pyStrip s).getLast? = some a) : isPySpace a = false := by
  unfold pyStrip at h
  rw [List.getLast?_reverse] at h
  cases hhead : (s.dropWhile isPySpace).reverse.dropWhile isPySpace with
  | nil => rw [hhead] at h; simp at h
  | cons b bs =>
    rw [hhead] at h
    simp at h
    subst h
    exact dropWhile_head_false hhead

theorem pyStrip_idem (s : Str) : pyStrip (pyStrip s) = pyStrip s := by
  apply pyStrip_eq_self_of
  · intro a t h
    exact pyStrip_head_false h
  · intro a h
    exact pyStrip_last_false h

theorem pyStrip_bracket (xs : Str) :
    pyStrip ('[' :: xs ++ [']']) = '[' :: xs ++ [']'] := by
  apply pyStrip_eq_self_of
  · intro a t h
    have ha : a = '[' := by
      have := congrArg List.head? h
      simpa using this.symm
    rw [ha]; decide
  · intro a h
    have h2 : ('[' :: xs ++ [']']).getLast? = some ']' := List.getLast?_concat ('[' :: xs)
    rw [h2] at h
    cases h
    decide

theorem pyStrip_cons_space {c : Char} (hc : isPySpace c = true) (s : Str) :
    pyStrip (c :: s) = pyStrip s := by
  unfold pyStrip
  rw [List.dropWhile_cons, if_pos hc]

theorem pyStrip_append_space {c : Char} (hc : isPySpace c = true) (s : Str) :
    pyStrip (s ++ [c]) = pyStrip s := by
  induction s with
  | nil =>
    simp only [List.nil_append]
    unfold pyStrip
    rw [List.dropWhile_cons, if_pos hc]
  | cons d ds ih =>
    by_cases hd : isPySpace d = true
    · rw [List.cons_append, pyStrip_cons_space hd, pyStrip_cons_space hd]
      exact ih
    · have hd2 : isPySpace d = false := by simpa using hd
      have e1 : List.dropWhile isPySpace (d :: (ds ++ [c])) = d :: (ds ++ [c]) := by
        rw [List.dropWhile_cons, if_neg (by simp [hd2])]
      have e2 : List.dropWhile isPySpace (d :: ds) = d :: ds := by
        rw [List.dropWhile_cons, if_neg (by simp [hd2])]
      rw [List.cons_append]
      unfold pyStrip
      rw [e1, e2]
      have e3 : (d :: (ds ++ [c])).reverse = c :: (d :: ds).reverse := by simp
      rw [e3, List.dropWhile_cons, if_pos hc]

theorem dropWhile_eq_self_append {p : Char → Bool} {A : Str} (B : Str)
    (hA : A.dropWhile p = A) (hne : A ≠ []) : (A ++ B).dropWhile p = A ++ B := by
  cases A with
  | nil => exact absurd rfl hne
  | cons a t =>
    have ha : p a = false := by
      by_cases h : p a = true
      · rw [List.dropWhile_cons, if_pos h] at hA
        have hlen := (List.dropWhile_sublist (l := t) p).length_le
        rw [hA] at hlen
        simp at hlen
      · simpa using h
    rw [List.cons_append, List.dropWhile_cons, if_neg (by simp [ha])]

/-! ### `pySplit` / `pyJoin` -/

theorem pySplit_cons_sep (sep : Char) (v : Str) :
    pySplit sep (sep :: v) = [] :: pySplit sep v := by
  rw [pySplit, if_pos rfl]

theorem pySplit_cons_of {sep c : Char} {v a : Str} {t : List Str}
    (hc : ¬ c = sep) (h : pySplit sep v = a :: t) :
    pySplit sep (c :: v) = (c :: a) :: t := by
  rw [pySplit, if_neg hc, h]

theorem pySplit_ne_nil (sep : Char) (s : Str) : pySplit sep s ≠ [] := by
  induction s with
  | nil => simp [pySplit]
  | cons c rest ih =>
    rw [pySplit]
    by_cases hc : c = sep
    · simp [hc]
    · rw [if_neg hc]
      cases h : pySplit sep rest with
      | nil => simp
      | cons a t => simp

theorem not_mem_pySplit (sep : Char) (s : Str) :
    ∀ piece ∈ pySplit sep s, sep ∉ piece := by
  induction s with
  | nil =>
    intro piece h
    rw [pySplit] at h
    obtain rfl := List.mem_singleton.mp h
    simp
  | cons c rest ih =>
    intro piece h
    by_cases hc : c = sep
    · subst hc
      rw [pySplit_cons_sep] at h
      rcases List.mem_cons.mp h with h2 | h2
      · rw [h2]; simp
      · exact ih piece h2
    · obtain ⟨a, t, hrest⟩ := List.exists_cons_of_ne_nil (pySplit_ne_nil sep rest)
      rw [pySplit_cons_of hc hrest] at h
      rcases List.mem_cons.mp h with h2 | h2
      · subst h2
        intro hmem
        rcases List.mem_cons.mp hmem with h3 | h3
        · exact hc h3.symm
        · exact ih a (by rw [hrest]; exact List.mem_cons_self a t) h3
      · exact ih piece (by rw [hrest]; exact List.mem_cons_of_mem a h2)

theorem pySplit_append_sep (sep : Char) (u v : Str) :
    pySplit sep (u ++ sep :: v) = pySplit sep u ++ pySplit sep v := by
  induction u with
  | nil =>
    rw [List.nil_append, pySplit_cons_sep]
    rfl
  | cons c u ih =>
    by_cases hc : c = sep
    · subst hc
      rw [List.cons_append, pySplit_cons_sep, pySplit_cons_sep, ih, List.cons_append]
    · obtain ⟨a, t, hu⟩ := List.exists_cons_of_ne_nil (pySplit_ne_nil sep u)
      have h1 : pySplit sep (u ++ sep :: v) = a :: (t ++ pySplit sep v) := by
        rw [ih, hu]; rfl
      rw [List.cons_append, pySplit_cons_of hc h1, pySplit_cons_of hc hu]
      rfl

theorem pySplit_of_not_mem {sep : Char} {u : Str} (h : sep ∉ u) :
    pySplit sep u = [u] := by
  induction u with
  | nil => rfl
  | cons c rest ih =>
    have hc : ¬ c = sep := fun hcc => h (by rw [hcc]; exact List.mem_cons_self _ _)
    have hr : pySplit sep rest = [rest] := ih (fun hm => h (List.mem_cons_of_mem c hm))
    rw [pySplit_cons_of hc hr]

theorem pyJoin_pySplit (sep : Char) (s : Str) : pyJoin sep (pySplit sep s) = s := by
  induction s with
  | nil => rfl
  | cons c rest ih =>
    obtain ⟨a, t, hrest⟩ := List.exists_cons_of_ne_nil (pySplit_ne_nil sep rest)
    by_cases hc : c = sep
    · subst hc
      rw [pySplit_cons_sep, hrest]
      simp only [pyJoin]
      rw [List.nil_append, ← hrest, ih]
    · rw [pySplit_cons_of hc hrest]
      cases t with
      | nil =>
        rw [hrest] at ih
        simp only [pyJoin] at ih
        simp only [pyJoin]
        rw [ih]
      | cons b bs =>
        rw [hrest] at ih
        simp only [pyJoin] at ih
        simp only [pyJoin]
        rw [List.cons_append, ih]

theorem pySplit_pyJoin_flat (sep : Char) (L : List Str) (hne : L ≠ []) :
    pySplit sep (pyJoin sep L) = (L.map (pySplit sep)).flatten := by
  induction L with
  | nil => exact absurd rfl hne
  | cons x xs ih =>
    cases xs with
    | nil => simp [pyJoin]
    | cons y ys =>
      simp only [pyJoin]
      rw [pySplit_append_sep, ih (by simp)]
      simp

theorem flatten_singleton_map (L : List Str) : (L.map (fun x => [x])).flatten = L := by
  induction L with
  | nil => rfl
  | cons x xs ih => simp only [List.map_cons, List.flatten_cons, List.singleton_append, ih]

theorem pySplit_pyJoin_free (sep : Char) (L : List Str) (hne : L ≠ [])
    (hfree : ∀ x ∈ L, sep ∉ x) : pySplit sep (pyJoin sep L) = L := by
  rw [pySplit_pyJoin_flat sep L hne]
  have hmap : L.map (pySplit sep) = L.map (fun x => [x]) := by
    apply List.map_congr_left
    intro x hx
    exact pySplit_of_not_mem (hfree x hx)
  rw [hmap, flatten_singleton_map]

/-! ### Dictionary lemmas -/

theorem dlookup_nil {β : Type} (k : Str) : dlookup (β := β) k [] = none := rfl

theorem dlookup_cons {β : Type} (k k2 : Str) (v : β) (rest : List (Str × β)) :
    dlookup k ((k2, v) :: rest) = if k2 = k then some v else dlookup k rest := rfl

theorem dinsert_nil {β : Type} (k : Str) (v : β) : dinsert k v [] = [(k, v)] := rfl

theorem dinsert_cons {β : Type} (k k2 : Str) (v v2 : β) (rest : List (Str × β)) :
    dinsert k v ((k2, v2) :: rest) =
      if k2 = k then (k, v) :: rest else (k2, v2) :: dinsert k v rest := rfl

theorem dkeys_nil {β : Type} : dkeys (β := β) [] = [] := rfl

theorem dkeys_cons {β : Type} (k2 : Str) (v : β) (rest : List (Str × β)) :
    dkeys ((k2, v) :: rest) = k2 :: dkeys rest := rfl

theorem mem_dkeys_cons {β : Type} {k k2 : Str} {v : β} {rest : List (Str × β)} :
    k ∈ dkeys ((k2, v) :: rest) ↔ k = k2 ∨ k ∈ dkeys rest := by
  rw [dkeys_cons, List.mem_cons]

theorem dlookup_dinsert {β : Type} (k : Str) (v : β) (m : List (Str × β)) :
    dlookup k (dinsert k v m) = some v := by
  induction m with
  | nil => rw [dinsert_nil, dlookup_cons, if_pos rfl]
  | cons kv rest ih =>
    obtain ⟨k2, v2⟩ := kv
    rw [dinsert_cons]
    by_cases h : k2 = k
    · rw [if_pos h, dlookup_cons, if_pos rfl]
    · rw [if_neg h, dlookup_cons, if_neg h, ih]

theorem dlookup_dinsert_ne {β : Type} {k k2 : Str} (hne : k2 ≠ k) (v : β)
    (m : List (Str × β)) : dlookup k2 (dinsert k v m) = dlookup k2 m := by
  induction m with
  | nil =>
    rw [dinsert_nil, dlookup_cons, if_neg (fun h => hne h.symm)]
  | cons kv rest ih =>
    obtain ⟨k3, v3⟩ := kv
    rw [dinsert_cons]
    by_cases h : k3 = k
    · subst h
      rw [if_pos rfl, dlookup_cons, dlookup_cons, if_neg (fun hh => hne hh.symm),
        if_neg (fun hh => hne hh.symm)]
    · rw [if_neg h, dlookup_cons, dlookup_cons, ih]

theorem dinsert_ne_nil {β : Type} (k : Str) (v : β) (m : List (Str × β)) :
    dinsert k v m ≠ [] := by
  cases m with
  | nil => simp [dinsert_nil]
  | cons kv rest =>
    obtain ⟨k2, v2⟩ := kv
    rw [dinsert_cons]
    by_cases h : k2 = k
    · rw [if_pos h]; simp
    · rw [if_neg h]; simp

theorem dlookup_eq_none_iff {β : Type} {k : Str} {m : List (Str × β)} :
    dlookup k m = none ↔ k ∉ dkeys m := by
  induction m with
  | nil => simp [dlookup_nil, dkeys_nil]
  | cons kv rest ih =>
    obtain ⟨k2, v2⟩ := kv
    rw [dlookup_cons, mem_dkeys_cons.not]
    by_cases h : k2 = k
    · subst h
      rw [if_pos rfl]
      simp
    · rw [if_neg h, ih]
      constructor
      · intro hn
        rintro (h2 | h2)
        · exact h h2.symm
        · exact hn h2
      · intro hn h2
        exact hn (Or.inr h2)

theorem hasKey_iff_mem_dkeys {β : Type} {k : Str} {m : List (Str × β)} :
    hasKey k m = true ↔ k ∈ dkeys m := by
  constructor
  · intro h
    by_contra hmem
    rw [← dlookup_eq_none_iff] at hmem
    rw [hasKey, hmem] at h
    simp at h
  · intro h
    rw [hasKey]
    cases hq : dlookup k m with
    | none => exact absurd (dlookup_eq_none_iff.mp hq) (by simp [h])
    | some v => rfl

theorem dkeys_dinsert_of_mem {β : Type} {k : Str} {m : List (Str × β)} (v : β)
    (h : k ∈ dkeys m) : dkeys (dinsert k v m) = dkeys m := by
  induction m with
  | nil => rw [dkeys_nil] at h; exact absurd h (List.not_mem_nil k)
  | cons kv rest ih =>
    obtain ⟨k2, v2⟩ := kv
    rw [dinsert_cons]
    by_cases h2 : k2 = k
    · rw [if_pos h2, dkeys_cons, dkeys_cons, h2]
    · rw [if_neg h2, dkeys_cons, dkeys_cons]
      have hk : k ∈ dkeys rest := by
        rcases mem_dkeys_cons.mp h with h3 | h3
        · exact absurd h3.symm h2
        · exact h3
      rw [ih hk]

theorem dinsert_eq_append {β : Type} {k : Str} {m : List (Str × β)} (v : β)
    (h : k ∉ dkeys m) : dinsert k v m = m ++ [(k, v)] := by
  induction m with
  | nil => rfl
  | cons kv rest ih =>
    obtain ⟨k2, v2⟩ := kv
    rw [dinsert_cons]
    have h2 : k2 ≠ k := fun hk => h (mem_dkeys_cons.mpr (Or.inl hk.symm))
    rw [if_neg h2, ih (fun hm => h (mem_dkeys_cons.mpr (Or.inr hm)))]
    rfl

theorem nodup_dkeys_dinsert {β : Type} (k : Str) (v : β) {m : List (Str × β)}
    (h : (dkeys m).Nodup) : (dkeys (dinsert k v m)).Nodup := by
  by_cases hk : k ∈ dkeys m
  · rw [dkeys_dinsert_of_mem v hk]; exact h
  · rw [dinsert_eq_append v hk]
    have : dkeys (m ++ [(k, v)]) = dkeys m ++ [k] := by
      rw [dkeys, List.map_append]; rfl
    rw [this, List.nodup_append]
    exact ⟨h, List.nodup_singleton k, fun a ha hb => by
      rw [List.mem_singleton] at hb
      subst hb
      exact hk ha⟩

theorem mem_dinsert {β : Type} {k : Str} {v : β} {m : List (Str × β)} :
    ∀ kv ∈ dinsert k v m, kv = (k, v) ∨ kv ∈ m := by
  induction m with
  | nil =>
    intro kv h
    rw [dinsert_nil] at h
    exact Or.inl (List.mem_singleton.mp h)
  | cons kv2 rest ih =>
    obtain ⟨k2, v2⟩ := kv2
    intro kv h
    rw [dinsert_cons] at h
    by_cases h2 : k2 = k
    · rw [if_pos h2] at h
      rcases List.mem_cons.mp h with h3 | h3
      · exact Or.inl h3
      · exact Or.inr (List.mem_cons_of_mem _ h3)
    · rw [if_neg h2] at h
      rcases List.mem_cons.mp h with h3 | h3
      · exact Or.inr (by rw [h3]; exact List.mem_cons_self _ _)
      · rcases ih kv h3 with h4 | h4
        · exact Or.inl h4
        · exact Or.inr (List.mem_cons_of_mem _ h4)

theorem ddel_cons {β : Type} (k k2 : Str) (v2 : β) (rest : List (Str × β)) :
    ddel k ((k2, v2) :: rest) =
      if k2 = k then ddel k rest else (k2, v2) :: ddel k rest := by
  rw [ddel, List.filter_cons]
  by_cases h : k2 = k
  · rw [if_neg (by simp [h]), if_pos h]
    rfl
  · rw [if_pos (by simp [h]), if_neg h]
    rfl

theorem dlookup_ddel_self {β : Type} (k : Str) (m : List (Str × β)) :
    dlookup k (ddel k m) = none := by
  induction m with
  | nil => rfl
  | cons kv rest ih =>
    obtain ⟨k2, v2⟩ := kv
    rw [ddel_cons]
    by_cases h : k2 = k
    · rw [if_pos h]; exact ih
    · rw [if_neg h, dlookup_cons, if_neg h]; exact ih

theorem dlookup_ddel_ne {β : Type} {k k2 : Str} (hne : k2 ≠ k) (m : List (Str × β)) :
    dlookup k2 (ddel k m) = dlookup k2 m := by
  induction m with
  | nil => rfl
  | cons kv rest ih =>
    obtain ⟨k3, v3⟩ := kv
    rw [ddel_cons]
    by_cases h : k3 = k
    · subst h
      rw [if_pos rfl, dlookup_cons, if_neg (fun hh => hne hh.symm)]
      exact ih
    · rw [if_neg h, dlookup_cons, dlookup_cons, ih]

theorem dkeys_ddel_sublist {β : Type} (k : Str) (m : List (Str × β)) :
    (dkeys (ddel k m)).Sublist (dkeys m) := by
  have hs : (ddel k m).Sublist m := List.filter_sublist m
  exact hs.map Prod.fst

theorem nodup_dkeys_ddel {β : Type} (k : Str) {m : List (Str × β)}
    (h : (dkeys m).Nodup) : (dkeys (ddel k m)).Nodup :=
  (dkeys_ddel_sublist k m).nodup h

theorem mem_ddel {β : Type} {k : Str} {m : List (Str × β)} :
    ∀ kv ∈ ddel k m, kv ∈ m := fun _ h => (List.filter_sublist m).subset h

theorem dmodify_nil {β : Type} (k : Str) (f : β → β) : dmodify k f [] = [] := rfl

theorem dmodify_cons {β : Type} (k k2 : Str) (f : β → β) (v2 : β) (rest : List (Str × β)) :
    dmodify k f ((k2, v2) :: rest) =
      if k2 = k then (k2, f v2) :: rest else (k2, v2) :: dmodify k f rest := rfl

theorem dlookup_dmodify_self {β : Type} (k : Str) (f : β → β) (m : List (Str × β)) :
    dlookup k (dmodify k f m) = (dlookup k m).map f := by
  induction m with
  | nil => rfl
  | cons kv rest ih =>
    obtain ⟨k2, v2⟩ := kv
    rw [dmodify_cons]
    by_cases h : k2 = k
    · rw [if_pos h, dlookup_cons, if_pos h, dlookup_cons, if_pos h]
      rfl
    · rw [if_neg h, dlookup_cons, if_neg h, dlookup_cons, if_neg h, ih]

theorem dlookup_dmodify_ne {β : Type} {k k2 : Str} (hne : k2 ≠ k) (f : β → β)
    (m : List (Str × β)) : dlookup k2 (dmodify k f m) = dlookup k2 m := by
  induction m with
  | nil => rfl
  | cons kv rest ih =>
    obtain ⟨k3, v3⟩ := kv
    rw [dmodify_cons]
    by_cases h : k3 = k
    · rw [if_pos h, dlookup_cons, dlookup_cons]
      by_cases h2 : k3 = k2
      · exact absurd (h2.symm.trans h) hne
      · rw [if_neg h2, if_neg h2]
    · rw [if_neg h, dlookup_cons, dlookup_cons, ih]

theorem dkeys_dmodify {β : Type} (k : Str) (f : β → β) (m : List (Str × β)) :
    dkeys (dmodify k f m) = dkeys m := by
  induction m with
  | nil => rfl
  | cons kv rest ih =>
    obtain ⟨k2, v2⟩ := kv
    rw [dmodify_cons]
    by_cases h : k2 = k
    · rw [if_pos h, dkeys_cons, dkeys_cons]
    · rw [if_neg h, dkeys_cons, dkeys_cons, ih]

theorem mem_dmodify {β : Type} {k : Str} {f : β → β} {m : List (Str × β)} :
    ∀ kv ∈ dmodify k f m, kv ∈ m ∨ ∃ w, (kv.1, w) ∈ m ∧ kv = (kv.1, f w) := by
  induction m with
  | nil => intro kv h; rw [dmodify_nil] at h; exact absurd h (List.not_mem_nil kv)
  | cons kv2 rest ih =>
    obtain ⟨k2, v2⟩ := kv2
    intro kv h
    rw [dmodify_cons] at h
    by_cases h2 : k2 = k
    · rw [if_pos h2] at h
      rcases List.mem_cons.mp h with h3 | h3
      · subst h3
        exact Or.inr ⟨v2, List.mem_cons_self _ _, rfl⟩
      · exact Or.inl (List.mem_cons_of_mem _ h3)
    · rw [if_neg h2] at h
      rcases List.mem_cons.mp h with h3 | h3
      · exact Or.inl (by rw [h3]; exact List.mem_cons_self _ _)
      · rcases ih kv h3 with h4 | ⟨w, hw1, hw2⟩
        · exact Or.inl (List.mem_cons_of_mem _ h4)
        · exact Or.inr ⟨w, List.mem_cons_of_mem _ hw1, hw2⟩

theorem dupdate_nil (c : Cfg) : dupdate c [] = c := rfl

theorem dupdate_cons (c : Cfg) (k : Str) (v : Str) (patch : Cfg) :
    dupdate c ((k, v) :: patch) = dupdate (dinsert k v c) patch := rfl

theorem dlookup_dupdate_none {k : Str} {patch : Cfg} (h : dlookup k patch = none) :
    ∀ c, dlookup k (dupdate c patch) = dlookup k c := by
  induction patch with
  | nil => intro c; rfl
  | cons kv rest ih =>
    obtain ⟨k1, v1⟩ := kv
    intro c
    rw [dlookup_cons] at h
    by_cases h1 : k1 = k
    · rw [if_pos h1] at h; exact Option.noConfusion h
    · rw [if_neg h1] at h
      rw [dupdate_cons, ih h, dlookup_dinsert_ne (fun hh => h1 hh.symm)]

theorem dlookup_dupdate_some {k : Str} {v : Str} {patch : Cfg}
    (hnd : (dkeys patch).Nodup) (h : dlookup k patch = some v) :
    ∀ c, dlookup k (dupdate c patch) = some v := by
  induction patch with
  | nil => intro c; exact Option.noConfusion h
  | cons kv rest ih =>
    obtain ⟨k1, v1⟩ := kv
    intro c
    rw [dkeys_cons, List.nodup_cons] at hnd
    rw [dlookup_cons] at h
    by_cases h1 : k1 = k
    · rw [if_pos h1] at h
      have hnone : dlookup k rest = none := by
        rw [dlookup_eq_none_iff]
        rw [← h1]
        exact hnd.1
      rw [dupdate_cons, dlookup_dupdate_none hnone, h1, dlookup_dinsert, h]
    · rw [if_neg h1] at h
      rw [dupdate_cons, ih hnd.2 h]

theorem dupdate_ne_nil {c : Cfg} (hc : c ≠ []) (patch : Cfg) : dupdate c patch ≠ [] := by
  induction patch generalizing c with
  | nil => exact hc
  | cons kv rest ih =>
    obtain ⟨k1, v1⟩ := kv
    rw [dupdate_cons]
    exact ih (dinsert_ne_nil k1 v1 c)

theorem nodup_dkeys_dupdate {c : Cfg} (h : (dkeys c).Nodup) (patch : Cfg) :
    (dkeys (dupdate c patch)).Nodup := by
  induction patch generalizing c with
  | nil => exact h
  | cons kv rest ih =>
    obtain ⟨k1, v1⟩ := kv
    rw [dupdate_cons]
    exact ih (nodup_dkeys_dinsert k1 v1 h)

theorem mem_dupdate {c patch : Cfg} :
    ∀ kv ∈ dupdate c patch, kv ∈ c ∨ kv ∈ patch := by
  induction patch generalizing c with
  | nil => intro kv h; exact Or.inl h
  | cons kv1 rest ih =>
    obtain ⟨k1, v1⟩ := kv1
    intro kv h
    rw [dupdate_cons] at h
    rcases ih kv h with h2 | h2
    · rcases mem_dinsert kv h2 with h3 | h3
      · exact Or.inr (by rw [h3]; exact List.mem_cons_self _ _)
      · exact Or.inl h3
    · exact Or.inr (List.mem_cons_of_mem _ h2)

theorem dinsertList_nil {β : Type} (m : List (Str × β)) : dinsertList [] m = m := rfl

theorem dinsertList_cons {β : Type} (k : Str) (v : β) (E m : List (Str × β)) :
    dinsertList ((k, v) :: E) m = dinsertList E (dinsert k v m) := rfl

theorem dinsertList_append {β : Type} (E1 E2 m : List (Str × β)) :
    dinsertList (E1 ++ E2) m = dinsertList E2 (dinsertList E1 m) := by
  rw [dinsertList, dinsertList, dinsertList, List.foldl_append]

theorem dlookup_dinsertList_not_mem {β : Type} {k : Str} {E : List (Str × β)}
    (h : k ∉ dkeys E) : ∀ m, dlookup k (dinsertList E m) = dlookup k m := by
  induction E with
  | nil => intro m; rfl
  | cons kv rest ih =>
    obtain ⟨k1, v1⟩ := kv
    intro m
    have h1 : k ≠ k1 := fun hh => h (mem_dkeys_cons.mpr (Or.inl hh))
    have h2 : k ∉ dkeys rest := fun hh => h (mem_dkeys_cons.mpr (Or.inr hh))
    rw [dinsertList_cons, ih h2, dlookup_dinsert_ne h1]

theorem dlookup_dinsertList_mem {β : Type} {k : Str} {E : List (Str × β)}
    (hnd : (dkeys E).Nodup) (h : k ∈ dkeys E) :
    ∀ m, dlookup k (dinsertList E m) = dlookup k E := by
  induction E with
  | nil => rw [dkeys_nil] at h; exact absurd h (List.not_mem_nil k)
  | cons kv rest ih =>
    obtain ⟨k1, v1⟩ := kv
    intro m
    rw [dkeys_cons, List.nodup_cons] at hnd
    rw [dinsertList_cons, dlookup_cons]
    by_cases h1 : k1 = k
    · subst h1
      rw [if_pos rfl, dlookup_dinsertList_not_mem hnd.1, dlookup_dinsert]
    · rw [if_neg h1]
      have h2 : k ∈ dkeys rest := by
        rcases mem_dkeys_cons.mp h with h3 | h3
        · exact absurd h3.symm h1
        · exact h3
      exact ih hnd.2 h2 (dinsert k1 v1 m)

theorem filter_dinsert_pos {β : Type} {p : Str → Bool} {k : Str} (hp : p k = true)
    (v : β) (m : List (Str × β)) :
    (dinsert k v m).filter (fun kv => p kv.1) =
      dinsert k v (m.filter (fun kv => p kv.1)) := by
  induction m with
  | nil =>
    rw [dinsert_nil, List.filter_nil, List.filter_cons, if_pos (by simpa using hp)]
    rfl
  | cons kv2 rest ih =>
    obtain ⟨k2, v2⟩ := kv2
    rw [dinsert_cons]
    by_cases h : k2 = k
    · subst h
      rw [if_pos rfl, List.filter_cons, if_pos (by simpa using hp),
        List.filter_cons, if_pos (by simpa using hp), dinsert_cons, if_pos rfl]
    · rw [if_neg h, List.filter_cons, List.filter_cons]
      by_cases h2 : p k2 = true
      · rw [if_pos (by simpa using h2), if_pos (by simpa using h2), ih,
          dinsert_cons, if_neg h]
      · rw [if_neg (by simpa using h2), if_neg (by simpa using h2), ih]

theorem filter_dinsert_neg {β : Type} {p : Str → Bool} {k : Str} (hp : p k = false)
    (v : β) (m : List (Str × β)) :
    (dinsert k v m).filter (fun kv => p kv.1) = m.filter (fun kv => p kv.1) := by
  induction m with
  | nil =>
    rw [dinsert_nil, List.filter_nil, List.filter_cons, if_neg (by simp [hp])]
    rfl
  | cons kv2 rest ih =>
    obtain ⟨k2, v2⟩ := kv2
    rw [dinsert_cons]
    by_cases h : k2 = k
    · subst h
      rw [if_pos rfl, List.filter_cons, if_neg (by simp [hp]), List.filter_cons,
        if_neg (by simp [hp])]
    · rw [if_neg h, List.filter_cons, List.filter_cons]
      by_cases h2 : p k2 = true
      · rw [if_pos (by simpa using h2), if_pos (by simpa using h2), ih]
      · rw [if_neg (by simpa using h2), if_neg (by simpa using h2), ih]

theorem filter_dinsertList {β : Type} (p : Str → Bool) (E : List (Str × β)) :
    ∀ m, (dinsertList E m).filter (fun kv => p kv.1) =
      dinsertList (E.filter (fun kv => p kv.1)) (m.filter (fun kv => p kv.1)) := by
  induction E with
  | nil => intro m; rfl
  | cons kv rest ih =>
    obtain ⟨k1, v1⟩ := kv
    intro m
    rw [dinsertList_cons, List.filter_cons]
    by_cases h : p k1 = true
    · rw [if_pos (by simpa using h), ih, filter_dinsert_pos h, dinsertList_cons]
    · have h2 : p k1 = false := by
        cases hb : p k1
        · rfl
        · exact absurd hb h
      rw [if_neg (by simp [h2]), ih, filter_dinsert_neg h2]

theorem dinsertList_eq_append {β : Type} {E : List (Str × β)} (hnd : (dkeys E).Nodup) :
    ∀ m, (∀ a ∈ dkeys E, a ∉ dkeys m) → dinsertList E m = m ++ E := by
  induction E with
  | nil => intro m _; simp [dinsertList_nil]
  | cons kv rest ih =>
    obtain ⟨k1, v1⟩ := kv
    intro m hdisj
    rw [dkeys_cons, List.nodup_cons] at hnd
    rw [dinsertList_cons,
      dinsert_eq_append v1 (hdisj k1 (mem_dkeys_cons.mpr (Or.inl rfl)))]
    rw [ih hnd.2 (m ++ [(k1, v1)]) ?hdisj2]
    · rw [List.append_assoc]; rfl
    case hdisj2 =>
      intro a ha hmem
      have : dkeys (m ++ [(k1, v1)]) = dkeys m ++ [k1] := by
        rw [dkeys, List.map_append]; rfl
      rw [this, List.mem_append] at hmem
      rcases hmem with hmem | hmem
      · exact hdisj a (mem_dkeys_cons.mpr (Or.inr ha)) hmem
      · rw [List.mem_singleton] at hmem
        subst hmem
        exact hnd.1 ha

theorem dlookup_filter_pos {β : Type} {p : Str → Bool} {k : Str} (hp : p k = true)
    (m : List (Str × β)) :
    dlookup k (m.filter (fun kv => p kv.1)) = dlookup k m := by
  induction m with
  | nil => rfl
  | cons kv rest ih =>
    obtain ⟨k2, v2⟩ := kv
    rw [List.filter_cons, dlookup_cons]
    by_cases h : k2 = k
    · subst h
      rw [if_pos (by simpa using hp), dlookup_cons, if_pos rfl, if_pos rfl]
    · rw [if_neg h]
      by_cases h2 : p k2 = true
      · rw [if_pos (by simpa using h2), dlookup_cons, if_neg h, ih]
      · have h3 : p k2 = false := by
          cases hb : p k2
          · rfl
          · exact absurd hb h2
        rw [if_neg (by simp [h3]), ih]

theorem dlookup_filter_neg {β : Type} {p : Str → Bool} {k : Str} (hp : p k = false)
    (m : List (Str × β)) :
    dlookup k (m.filter (fun kv => p kv.1)) = none := by
  induction m with
  | nil => rfl
  | cons kv rest ih =>
    obtain ⟨k2, v2⟩ := kv
    rw [List.filter_cons]
    by_cases h2 : p k2 = true
    · rw [if_pos (by simpa using h2), dlookup_cons]
      have h : k2 ≠ k := by
        intro hh
        rw [hh, hp] at h2
        exact Bool.false_ne_true h2
      rw [if_neg h, ih]
    · have h3 : p k2 = false := by
        cases hb : p k2
        · rfl
        · exact absurd hb h2
      rw [if_neg (by simp [h3]), ih]

/-! ### Step equations for the parser and rebuilder loops -/

theorem parseStep_header {st : ParseState} {raw : Str}
    (h1 : isHeaderLine (pyStrip raw)) (h2 : ¬ isGlobalPre (pyStrip raw)) :
    parseStep st raw =
      { shares := if st.cur ≠ [] ∧ st.cfg ≠ [] then dinsert st.cur st.cfg st.shares
                  else st.shares
        cur := headerName (pyStrip raw), cfg := [] } := by
  rw [parseStep]
  rw [if_pos ⟨h1, h2⟩]

theorem parseStep_kv {st : ParseState} {raw : Str}
    (h1 : ¬ (isHeaderLine (pyStrip raw) ∧ ¬ isGlobalPre (pyStrip raw)))
    (h2 : st.cur ≠ []) (h3 : '=' ∈ pyStrip raw) :
    parseStep st raw =
      { st with cfg := dinsert (parseKey (pyStrip raw)) (parseVal (pyStrip raw)) st.cfg } := by
  rw [parseStep]
  rw [if_neg h1, if_pos ⟨h2, h3⟩]

theorem parseStep_skip {st : ParseState} {raw : Str}
    (h1 : ¬ (isHeaderLine (pyStrip raw) ∧ ¬ isGlobalPre (pyStrip raw)))
    (h2 : ¬ (st.cur ≠ [] ∧ '=' ∈ pyStrip raw)) :
    parseStep st raw = st := by
  rw [parseStep]
  rw [if_neg h1, if_neg h2]

theorem secsAux_nil (cur : Str) (cfg : Cfg) : secsAux [] cur cfg = secEmit cur cfg := rfl

theorem secsAux_cons_header {raw : Str} (rest : List Str) {cur : Str} {cfg : Cfg}
    (h1 : isHeaderLine (pyStrip raw)) (h2 : ¬ isGlobalPre (pyStrip raw)) :
    secsAux (raw :: rest) cur cfg =
      secEmit cur cfg ++ secsAux rest (headerName (pyStrip raw)) [] := by
  rw [secsAux]
  rw [if_pos ⟨h1, h2⟩]

theorem secsAux_cons_kv {raw : Str} (rest : List Str) {cur : Str} (cfg : Cfg)
    (h1 : ¬ (isHeaderLine (pyStrip raw) ∧ ¬ isGlobalPre (pyStrip raw)))
    (h2 : cur ≠ []) (h3 : '=' ∈ pyStrip raw) :
    secsAux (raw :: rest) cur cfg =
      secsAux rest cur (dinsert (parseKey (pyStrip raw)) (parseVal (pyStrip raw)) cfg) := by
  rw [secsAux]
  rw [if_neg h1, if_pos ⟨h2, h3⟩]

theorem secsAux_cons_skip {raw : Str} (rest : List Str) {cur : Str} (cfg : Cfg)
    (h1 : ¬ (isHeaderLine (pyStrip raw) ∧ ¬ isGlobalPre (pyStrip raw)))
    (h2 : ¬ (cur ≠ [] ∧ '=' ∈ pyStrip raw)) :
    secsAux (raw :: rest) cur cfg = secsAux rest cur cfg := by
  rw [secsAux]
  rw [if_neg h1, if_neg h2]

theorem stAux_nil (s : Str × Cfg) : stAux [] s = s := rfl

theorem stAux_cons (raw : Str) (rest : List Str) (s : Str × Cfg) :
    stAux (raw :: rest) s = stAux rest (stStep s raw) := rfl

theorem stAux_append (X Y : List Str) (s : Str × Cfg) :
    stAux (X ++ Y) s = stAux Y (stAux X s) := by
  rw [stAux, stAux, stAux, List.foldl_append]

theorem stStep_header {s : Str × Cfg} {raw : Str}
    (h1 : isHeaderLine (pyStrip raw)) (h2 : ¬ isGlobalPre (pyStrip raw)) :
    stStep s raw = (headerName (pyStrip raw), []) := by
  rw [stStep]
  rw [if_pos ⟨h1, h2⟩]

theorem stStep_kv {s : Str × Cfg} {raw : Str}
    (h1 : ¬ (isHeaderLine (pyStrip raw) ∧ ¬ isGlobalPre (pyStrip raw)))
    (h2 : s.1 ≠ []) (h3 : '=' ∈ pyStrip raw) :
    stStep s raw = (s.1, dinsert (parseKey (pyStrip raw)) (parseVal (pyStrip raw)) s.2) := by
  rw [stStep]
  rw [if_neg h1, if_pos ⟨h2, h3⟩]

theorem stStep_skip {s : Str × Cfg} {raw : Str}
    (h1 : ¬ (isHeaderLine (pyStrip raw) ∧ ¬ isGlobalPre (pyStrip raw)))
    (h2 : ¬ (s.1 ≠ [] ∧ '=' ∈ pyStrip raw)) :
    stStep s raw = s := by
  rw [stStep]
  rw [if_neg h1, if_neg h2]

theorem emAux_nil (s : Str × Cfg) : emAux [] s = [] := rfl

theorem emAux_cons_header {raw : Str} (rest : List Str) {s : Str × Cfg}
    (h1 : isHeaderLine (pyStrip raw)) (h2 : ¬ isGlobalPre (pyStrip raw)) :
    emAux (raw :: rest) s =
      secEmit s.1 s.2 ++ emAux rest (headerName (pyStrip raw), []) := by
  rw [emAux]
  rw [if_pos ⟨h1, h2⟩]

theorem emAux_cons_kv {raw : Str} (rest : List Str) {s : Str × Cfg}
    (h1 : ¬ (isHeaderLine (pyStrip raw) ∧ ¬ isGlobalPre (pyStrip raw)))
    (h2 : s.1 ≠ []) (h3 : '=' ∈ pyStrip raw) :
    emAux (raw :: rest) s =
      emAux rest (s.1, dinsert (parseKey (pyStrip raw)) (parseVal (pyStrip raw)) s.2) := by
  rw [emAux]
  rw [if_neg h1, if_pos ⟨h2, h3⟩]

theorem emAux_cons_skip {raw : Str} (rest : List Str) {s : Str × Cfg}
    (h1 : ¬ (isHeaderLine (pyStrip raw) ∧ ¬ isGlobalPre (pyStrip raw)))
    (h2 : ¬ (s.1 ≠ [] ∧ '=' ∈ pyStrip raw)) :
    emAux (raw :: rest) s = emAux rest s := by
  rw [emAux]
  rw [if_neg h1, if_neg h2]

theorem rebuildLines_nil (inS : Bool) : rebuildLines inS [] = [] := rfl

theorem rebuildLines_cons_user {raw : Str} (inS : Bool) (rest : List Str)
    (h1 : isHeaderLine (pyStrip raw)) (h2 : headerName (pyStrip raw) ∉ reservedRebuild) :
    rebuildLines inS (raw :: rest) = rebuildLines true rest := by
  rw [rebuildLines]
  rw [if_pos h1, if_pos h2]

theorem rebuildLines_cons_reserved {raw : Str} (inS : Bool) (rest : List Str)
    (h1 : isHeaderLine (pyStrip raw)) (h2 : headerName (pyStrip raw) ∈ reservedRebuild) :
    rebuildLines inS (raw :: rest) = raw :: rebuildLines false rest := by
  rw [rebuildLines]
  rw [if_pos h1, if_neg (by simpa using h2)]

theorem rebuildLines_cons_in {raw : Str} (rest : List Str)
    (h1 : ¬ isHeaderLine (pyStrip raw)) :
    rebuildLines true (raw :: rest) = rebuildLines true rest := by
  rw [rebuildLines]
  rw [if_neg h1, if_pos (by trivial)]

theorem rebuildLines_cons_out {raw : Str} (rest : List Str)
    (h1 : ¬ isHeaderLine (pyStrip raw)) :
    rebuildLines false (raw :: rest) = raw :: rebuildLines false rest := by
  rw [rebuildLines]
  rw [if_neg h1, if_neg (by simp)]

/-! ### Trace view of the parser -/

theorem parse_foldl_eq_dinsertList :
    ∀ (L : List Str) (sh : Shares) (cur : Str) (cfg : Cfg),
      parseFinish (L.foldl parseStep ⟨sh, cur, cfg⟩) = dinsertList (secsAux L cur cfg) sh := by
  intro L
  induction L with
  | nil =>
    intro sh cur cfg
    rw [List.foldl_nil, secsAux_nil, parseFinish, secEmit]
    by_cases h : cur ≠ [] ∧ cfg ≠ []
    · rw [if_pos h, if_pos h]; rfl
    · rw [if_neg h, if_neg h]; rfl
  | cons raw rest ih =>
    intro sh cur cfg
    rw [List.foldl_cons]
    by_cases h1 : isHeaderLine (pyStrip raw) ∧ ¬ isGlobalPre (pyStrip raw)
    · rw [parseStep_header h1.1 h1.2, ih, secsAux_cons_header rest h1.1 h1.2,
        dinsertList_append]
      congr 1
      rw [secEmit]
      by_cases h2 : cur ≠ [] ∧ cfg ≠ []
      · rw [if_pos h2, if_pos h2]; rfl
      · rw [if_neg h2, if_neg h2]; rfl
    · by_cases h2 : cur ≠ [] ∧ '=' ∈ pyStrip raw
      · rw [parseStep_kv h1 h2.1 h2.2, ih, secsAux_cons_kv rest cfg h1 h2.1 h2.2]
      · rw [parseStep_skip h1 h2, ih, secsAux_cons_skip rest cfg h1 h2]

theorem parse_shares_eq_secs (content : Str) :
    parse_shares content = dinsertList (secsAux (pySplit '\n' content) [] []) [] := by
  rw [parse_shares, parse_foldl_eq_dinsertList]

theorem secsAux_append :
    ∀ (X Y : List Str) (cur : Str) (cfg : Cfg),
      secsAux (X ++ Y) cur cfg =
        emAux X (cur, cfg) ++ secsAux Y (stAux X (cur, cfg)).1 (stAux X (cur, cfg)).2 := by
  intro X
  induction X with
  | nil =>
    intro Y cur cfg
    rw [List.nil_append, emAux_nil, stAux_nil, List.nil_append]
  | cons raw rest ih =>
    intro Y cur cfg
    rw [List.cons_append]
    by_cases h1 : isHeaderLine (pyStrip raw) ∧ ¬ isGlobalPre (pyStrip raw)
    · rw [secsAux_cons_header _ h1.1 h1.2, emAux_cons_header rest h1.1 h1.2,
        stAux_cons, stStep_header h1.1 h1.2, ih, List.append_assoc]
    · by_cases h2 : cur ≠ [] ∧ '=' ∈ pyStrip raw
      · rw [secsAux_cons_kv _ cfg h1 h2.1 h2.2, emAux_cons_kv rest h1 h2.1 h2.2,
          stAux_cons, stStep_kv h1 h2.1 h2.2, ih]
      · rw [secsAux_cons_skip _ cfg h1 h2, emAux_cons_skip rest h1 h2,
          stAux_cons, stStep_skip h1 h2, ih]

theorem secsAux_eq_emAux (L : List Str) (cur : Str) (cfg : Cfg) :
    secsAux L cur cfg =
      emAux L (cur, cfg) ++ secEmit (stAux L (cur, cfg)).1 (stAux L (cur, cfg)).2 := by
  have h := secsAux_append L [] cur cfg
  rw [List.append_nil] at h
  rw [h, secsAux_nil]

theorem secsAux_noheader_prefix :
    ∀ (X : List Str) (hX : ∀ raw ∈ X, ¬ isHeaderLine (pyStrip raw)) (Y : List Str) (cfg : Cfg),
      secsAux (X ++ Y) [] cfg = secsAux Y [] cfg := by
  intro X
  induction X with
  | nil => intro _ Y cfg; rw [List.nil_append]
  | cons raw rest ih =>
    intro hX Y cfg
    rw [List.cons_append,
      secsAux_cons_skip _ cfg (fun hh => hX raw (List.mem_cons_self _ _) hh.1)
        (fun hh => hh.1 rfl)]
    exact ih (fun l hl => hX l (List.mem_cons_of_mem raw hl)) Y cfg

theorem rebuildLines_noheader_prefix :
    ∀ (X : List Str) (hX : ∀ raw ∈ X, ¬ isHeaderLine (pyStrip raw)) (Y : List Str),
      rebuildLines false (X ++ Y) = X ++ rebuildLines false Y := by
  intro X
  induction X with
  | nil => intro _ Y; rw [List.nil_append, List.nil_append]
  | cons raw rest ih =>
    intro hX Y
    rw [List.cons_append,
      rebuildLines_cons_out _ (hX raw (List.mem_cons_self _ _)),
      ih (fun l hl => hX l (List.mem_cons_of_mem raw hl)) Y, List.cons_append]

theorem isHeaderLine_global : isHeaderLine ("[global]".toList) := by decide

theorem headerName_global : headerName ("[global]".toList) = "global".toList := by decide

theorem secsAux_global_cons {g : Str} (hg : pyStrip g = "[global]".toList)
    (Y : List Str) (cur : Str) (cfg : Cfg) :
    secsAux (g :: Y) cur cfg = secsAux Y cur cfg := by
  apply secsAux_cons_skip
  · intro hh
    exact hh.2 (by rw [hg])
  · intro hh
    rw [hg] at hh
    exact absurd hh.2 (by decide)

theorem rebuildLines_global_cons {g : Str} (hg : pyStrip g = "[global]".toList)
    (inS : Bool) (Y : List Str) :
    rebuildLines inS (g :: Y) = g :: rebuildLines false Y := by
  apply rebuildLines_cons_reserved
  · rw [hg]; exact isHeaderLine_global
  · rw [hg, headerName_global]
    decide

/-! ### `secEmit` and `filterReserved` -/

theorem secEmit_pos {cur : Str} {cfg : Cfg} (h1 : cur ≠ []) (h2 : cfg ≠ []) :
    secEmit cur cfg = [(cur, cfg)] := by
  rw [secEmit, if_pos ⟨h1, h2⟩]

theorem secEmit_nil_cur (cfg : Cfg) : secEmit [] cfg = [] := by
  rw [secEmit, if_neg (fun hh => hh.1 rfl)]

theorem filterReserved_nil : filterReserved [] = [] := rfl

theorem filterReserved_append (a b : List (Str × Cfg)) :
    filterReserved (a ++ b) = filterReserved a ++ filterReserved b := by
  rw [filterReserved, filterReserved, filterReserved, List.filter_append]

theorem filterReserved_secEmit {cur : Str} (cfg : Cfg)
    (h : cur = [] ∨ cur ∈ reservedRebuild) :
    filterReserved (secEmit cur cfg) = secEmit cur cfg := by
  rcases h with h | h
  · subst h
    rw [secEmit_nil_cur]
    rfl
  · rw [secEmit]
    by_cases h2 : cur ≠ [] ∧ cfg ≠ []
    · rw [if_pos h2, filterReserved, List.filter_cons, if_pos (by simpa using h)]
      rfl
    · rw [if_neg h2]
      rfl

theorem filterReserved_secEmit_not {cur : Str} (cfg : Cfg)
    (h : cur ∉ reservedRebuild) : filterReserved (secEmit cur cfg) = [] := by
  rw [secEmit]
  by_cases h2 : cur ≠ [] ∧ cfg ≠ []
  · rw [if_pos h2, filterReserved, List.filter_cons, if_neg (by simpa using h)]
    rfl
  · rw [if_neg h2]
    rfl

/-! ### The rebuild scan versus the parse trace -/

theorem secsAux_rebuildLines :
    ∀ (L : List Str) (mode : Bool) (cur ocur : Str) (cfg ocfg : Cfg),
      (∀ raw ∈ L, ¬ isGlobalPre (pyStrip raw)) →
      (cur = [] ∨ cur ∈ reservedRebuild) →
      (mode = true → ocur ∉ reservedRebuild) →
      (mode = false → ocur = cur ∧ ocfg = cfg) →
      secsAux (rebuildLines mode L) cur cfg =
        (if mode = true then secEmit cur cfg else []) ++
          filterReserved (secsAux L ocur ocfg) := by
  intro L
  induction L with
  | nil =>
    intro mode cur ocur cfg ocfg _ hres hO hEq
    rw [rebuildLines_nil, secsAux_nil, secsAux_nil]
    cases mode with
    | false =>
      obtain ⟨rfl, rfl⟩ := hEq rfl
      rw [if_neg (by decide), List.nil_append, filterReserved_secEmit _ hres]
    | true =>
      rw [if_pos rfl, filterReserved_secEmit_not _ (hO rfl), List.append_nil]
  | cons raw rest ih =>
    intro mode cur ocur cfg ocfg hng hres hO hEq
    have hngr : ¬ isGlobalPre (pyStrip raw) := hng raw (List.mem_cons_self _ _)
    have hngrest : ∀ l ∈ rest, ¬ isGlobalPre (pyStrip l) :=
      fun l hl => hng l (List.mem_cons_of_mem raw hl)
    by_cases hh : isHeaderLine (pyStrip raw)
    · by_cases hr : headerName (pyStrip raw) ∈ reservedRebuild
      · rw [rebuildLines_cons_reserved mode rest hh hr,
          secsAux_cons_header _ hh hngr,
          ih false (headerName (pyStrip raw)) (headerName (pyStrip raw)) [] []
            hngrest (Or.inr hr) (fun h => absurd h (by decide)) (fun _ => ⟨rfl, rfl⟩),
          if_neg (by decide), List.nil_append,
          secsAux_cons_header _ hh hngr, filterReserved_append]
        cases mode with
        | false =>
          obtain ⟨rfl, rfl⟩ := hEq rfl
          rw [if_neg (by decide), List.nil_append, filterReserved_secEmit _ hres]
        | true =>
          rw [if_pos rfl, filterReserved_secEmit_not _ (hO rfl), List.nil_append]
      · rw [rebuildLines_cons_user mode rest hh hr,
          ih true cur (headerName (pyStrip raw)) cfg []
            hngrest hres (fun _ => hr) (fun h => absurd h (by decide)),
          if_pos rfl,
          secsAux_cons_header _ hh hngr, filterReserved_append]
        cases mode with
        | false =>
          obtain ⟨rfl, rfl⟩ := hEq rfl
          rw [if_neg (by decide), List.nil_append, filterReserved_secEmit _ hres]
        | true =>
          rw [if_pos rfl, filterReserved_secEmit_not _ (hO rfl), List.nil_append]
    · have hns : ¬ (isHeaderLine (pyStrip raw) ∧ ¬ isGlobalPre (pyStrip raw)) :=
        fun hhh => hh hhh.1
      cases mode with
      | true =>
        rw [rebuildLines_cons_in rest hh]
        by_cases h2 : ocur ≠ [] ∧ '=' ∈ pyStrip raw
        · rw [ih true cur ocur cfg
              (dinsert (parseKey (pyStrip raw)) (parseVal (pyStrip raw)) ocfg)
              hngrest hres hO (fun h => absurd h (by decide)),
            if_pos rfl, secsAux_cons_kv rest ocfg hns h2.1 h2.2]
        · rw [ih true cur ocur cfg ocfg hngrest hres hO (fun h => absurd h (by decide)),
            if_pos rfl, secsAux_cons_skip rest ocfg hns h2]
      | false =>
        obtain ⟨rfl, rfl⟩ := hEq rfl
        rw [rebuildLines_cons_out rest hh]
        by_cases h2 : ocur ≠ [] ∧ '=' ∈ pyStrip raw
        · rw [if_neg (by decide), List.nil_append,
            secsAux_cons_kv (rebuildLines false rest) ocfg hns h2.1 h2.2,
            secsAux_cons_kv rest ocfg hns h2.1 h2.2,
            ih false ocur ocur
              (dinsert (parseKey (pyStrip raw)) (parseVal (pyStrip raw)) ocfg)
              (dinsert (parseKey (pyStrip raw)) (parseVal (pyStrip raw)) ocfg)
              hngrest hres (fun h => absurd h (by decide)) (fun _ => ⟨rfl, rfl⟩),
            if_neg (by decide), List.nil_append]
        · rw [if_neg (by decide), List.nil_append,
            secsAux_cons_skip (rebuildLines false rest) ocfg hns h2,
            secsAux_cons_skip rest ocfg hns h2,
            ih false ocur ocur ocfg ocfg hngrest hres
              (fun h => absurd h (by decide)) (fun _ => ⟨rfl, rfl⟩),
            if_neg (by decide), List.nil_append]

/-! ### Header line shape -/

theorem singleton_prefix_head {a : Char} {l : Str} : [a] <+: l ↔ l.head? = some a := by
  constructor
  · rintro ⟨t, ht⟩
    rw [← ht]
    rfl
  · intro h
    cases l with
    | nil => exact Option.noConfusion h
    | cons b t =>
      have : b = a := by simpa using h
      subst this
      exact ⟨t, rfl⟩

theorem getLast?_concat_decomp {l : Str} {a : Char} (h : l.getLast? = some a) :
    l = l.dropLast ++ [a] := by
  have hne : l ≠ [] := by
    intro h0
    rw [h0] at h
    exact Option.noConfusion h
  have h2 := List.getLast?_eq_getLast l hne
  rw [h] at h2
  have h3 : a = l.getLast hne := Option.some.inj h2
  conv_lhs => rw [← List.dropLast_append_getLast hne]
  rw [← h3]

theorem singleton_suffix_last {a : Char} {l : Str} : [a] <:+ l ↔ l.getLast? = some a := by
  constructor
  · rintro ⟨t, ht⟩
    rw [← ht]
    simp
  · intro h
    exact ⟨l.dropLast, (getLast?_concat_decomp h).symm⟩

theorem headerLine_shape {l : Str} (h : isHeaderLine l) :
    l = '[' :: (headerName l ++ [']']) := by
  obtain ⟨t, ht⟩ := h.1
  have hl : l = '[' :: t := by rw [← ht]; rfl
  have hlast : l.getLast? = some ']' := singleton_suffix_last.mp h.2
  have htne : t ≠ [] := by
    intro h0
    rw [hl, h0] at hlast
    simp at hlast
  have htlast : t.getLast? = some ']' := by
    rw [hl] at hlast
    rw [show ('[' :: t) = ['['] ++ t from rfl,
      List.getLast?_append_of_ne_nil ['['] htne] at hlast
    exact hlast
  have ht2 : t = t.dropLast ++ [']'] := getLast?_concat_decomp htlast
  have hn : headerName l = t.dropLast := by
    rw [headerName, hl]
    rfl
  rw [hn, hl]
  conv_lhs => rw [ht2]

theorem isHeaderLine_bracket (n : Str) : isHeaderLine ('[' :: n ++ [']']) := by
  constructor
  · exact ⟨n ++ [']'], rfl⟩
  · exact singleton_suffix_last.mpr (List.getLast?_concat ('[' :: n))

theorem headerName_bracket (n : Str) : headerName ('[' :: n ++ [']']) = n := by
  rw [headerName]
  have : ('[' :: n ++ [']']).drop 1 = n ++ [']'] := rfl
  rw [this, List.dropLast_concat]

/-! ### Parsing a formatted `key = value` line -/

theorem dropWhile_eq_nil_of_all {p : Char → Bool} {l : Str} (h : ∀ x ∈ l, p x = true) :
    l.dropWhile p = [] := by
  induction l with
  | nil => rfl
  | cons a t ih =>
    rw [List.dropWhile_cons, if_pos (h a (List.mem_cons_self a t))]
    exact ih (fun x hx => h x (List.mem_cons_of_mem a hx))

theorem pyStrip_self_head_char {k : Str} {a : Char} {t : Str}
    (hk : pyStrip k = k) (hcons : k = a :: t) : isPySpace a = false :=
  pyStrip_head_false (hk.trans hcons)

theorem pyStrip_self_last_char {v : Str} {a : Char}
    (hv : pyStrip v = v) (h : v.getLast? = some a) : isPySpace a = false :=
  pyStrip_last_false (by rw [hv]; exact h)

theorem formatShareLine_eq (k v : Str) :
    formatShareLine k v = ' ' :: ' ' :: ' ' :: (k ++ (' ' :: '=' :: ' ' :: v)) := by
  rw [formatShareLine]
  simp

theorem formatShareLine_strip {k v : Str} (hk : pyStrip k = k) (hv : pyStrip v = v) :
    pyStrip (formatShareLine k v) =
      (if k = [] then [] else k ++ [' ']) ++ '=' :: (if v = [] then [] else ' ' :: v) := by
  rw [formatShareLine_eq,
    pyStrip_cons_space (by decide), pyStrip_cons_space (by decide),
    pyStrip_cons_space (by decide)]
  by_cases hk0 : k = []
  · subst hk0
    rw [List.nil_append, pyStrip_cons_space (by decide), if_pos rfl, List.nil_append]
    by_cases hv0 : v = []
    · subst hv0
      rw [if_pos rfl]
      decide
    · rw [if_neg hv0]
      apply pyStrip_eq_self_of
      · intro a t h
        have : a = '=' := by
          have := congrArg List.head? h
          simpa using this.symm
        rw [this]
        decide
      · intro a h
        rw [show ('=' :: ' ' :: v) = ['=', ' '] ++ v from rfl,
          List.getLast?_append_of_ne_nil _ hv0] at h
        exact pyStrip_self_last_char hv h
  · obtain ⟨a, t, hat⟩ := List.exists_cons_of_ne_nil hk0
    rw [if_neg hk0]
    by_cases hv0 : v = []
    · subst hv0
      rw [if_pos rfl]
      rw [show k ++ (' ' :: '=' :: ' ' :: []) = (k ++ [' ', '=']) ++ [' '] by simp,
        pyStrip_append_space (by decide)]
      have hres : pyStrip (k ++ [' ', '=']) = k ++ [' ', '='] := by
        apply pyStrip_eq_self_of
        · intro b u h
          have hb : b = a := by
            have := congrArg List.head? h
            rw [hat] at this
            simpa using this.symm
          rw [hb]
          exact pyStrip_self_head_char hk hat
        · intro b h
          rw [List.getLast?_append_of_ne_nil _ (by simp)] at h
          have : b = '=' := by simpa using h.symm
          rw [this]
          decide
      rw [hres]
      simp
    · rw [if_neg hv0]
      have hres : pyStrip (k ++ (' ' :: '=' :: ' ' :: v)) = k ++ (' ' :: '=' :: ' ' :: v) := by
        apply pyStrip_eq_self_of
        · intro b u h
          have hb : b = a := by
            have := congrArg List.head? h
            rw [hat] at this
            simpa using this.symm
          rw [hb]
          exact pyStrip_self_head_char hk hat
        · intro b h
          rw [show k ++ (' ' :: '=' :: ' ' :: v) = (k ++ [' ', '=', ' ']) ++ v by simp,
            List.getLast?_append_of_ne_nil _ hv0] at h
          exact pyStrip_self_last_char hv h
      rw [hres]
      simp

theorem formatShareLine_has_eq {k v : Str} (hk : pyStrip k = k) (hv : pyStrip v = v) :
    '=' ∈ pyStrip (formatShareLine k v) := by
  rw [formatShareLine_strip hk hv]
  exact List.mem_append_right _ (List.mem_cons_self _ _)

theorem formatShareLine_not_header {k v : Str} (h : cleanKV k v) :
    ¬ isHeaderLine (pyStrip (formatShareLine k v)) := by
  obtain ⟨_, _, h3, h4, h5, h6⟩ := h
  rw [formatShareLine_strip h4 h5]
  rintro ⟨hpre, hsuf⟩
  rw [singleton_prefix_head] at hpre
  rw [singleton_suffix_last] at hsuf
  by_cases hk0 : k = []
  · rw [if_pos hk0, List.nil_append] at hpre
    simp at hpre
  · obtain ⟨a, t, hat⟩ := List.exists_cons_of_ne_nil hk0
    rw [if_neg hk0, hat] at hpre
    simp only [List.cons_append, List.head?_cons, Option.some.injEq] at hpre
    have hkpre : ['['] <+: k := by
      rw [hat, hpre]
      exact ⟨t, rfl⟩
    by_cases hv0 : v = []
    · rw [if_pos hv0, if_neg hk0] at hsuf
      rw [show (k ++ [' ']) ++ '=' :: [] = (k ++ [' ']) ++ ['='] from rfl,
        List.getLast?_concat] at hsuf
      simp at hsuf
    · rw [if_neg hv0, if_neg hk0] at hsuf
      rw [show (k ++ [' ']) ++ '=' :: ' ' :: v = ((k ++ [' ']) ++ ['=', ' ']) ++ v by simp,
        List.getLast?_append_of_ne_nil _ hv0] at hsuf
      exact h6 ⟨hkpre, singleton_suffix_last.mpr hsuf⟩

theorem formatShareLine_parseKey {k v : Str} (h : cleanKV k v) :
    parseKey (pyStrip (formatShareLine k v)) = k := by
  obtain ⟨_, _, h3, h4, h5, _⟩ := h
  rw [parseKey, formatShareLine_strip h4 h5]
  by_cases hk0 : k = []
  · subst hk0
    rw [if_pos rfl, List.nil_append, List.takeWhile_cons, if_neg (by decide)]
    rfl
  · rw [if_neg hk0,
      List.takeWhile_append_of_pos (by
        intro c hc
        rcases List.mem_append.mp hc with hc | hc
        · have hcne : c ≠ '=' := fun hce => h3 (hce ▸ hc)
          simpa using hcne
        · rw [List.mem_singleton] at hc
          rw [hc]
          decide),
      List.takeWhile_cons, if_neg (by decide), List.append_nil,
      pyStrip_append_space (by decide), h4]

theorem formatShareLine_parseVal {k v : Str} (h : cleanKV k v) :
    parseVal (pyStrip (formatShareLine k v)) = v := by
  obtain ⟨_, _, h3, h4, h5, _⟩ := h
  rw [parseVal, formatShareLine_strip h4 h5]
  have hdrop : ((if k = [] then [] else k ++ [' ']) ++
      '=' :: (if v = [] then [] else ' ' :: v)).dropWhile (fun c => c ≠ '=') =
      '=' :: (if v = [] then [] else ' ' :: v) := by
    rw [List.dropWhile_append]
    have hA : ((if k = [] then [] else k ++ [' ']).dropWhile (fun c => c ≠ '=')) = [] := by
      apply dropWhile_eq_nil_of_all
      intro c hc
      by_cases hk0 : k = []
      · rw [if_pos hk0] at hc
        exact absurd hc (List.not_mem_nil c)
      · rw [if_neg hk0] at hc
        rcases List.mem_append.mp hc with hc | hc
        · have hcne : c ≠ '=' := fun hce => h3 (hce ▸ hc)
          simpa using hcne
        · rw [List.mem_singleton] at hc
          rw [hc]
          decide
    rw [hA]
    simp only [List.isEmpty_nil, if_pos]
    rw [List.dropWhile_cons, if_neg (by decide)]
  rw [hdrop, List.drop_one, List.tail_cons]
  by_cases hv0 : v = []
  · rw [if_pos hv0, hv0]
    rfl
  · rw [if_neg hv0, pyStrip_cons_space (by decide), h5]

/-! ### Parsing the appendix -/

theorem dkeys_append {β : Type} (a b : List (Str × β)) :
    dkeys (a ++ b) = dkeys a ++ dkeys b := by
  rw [dkeys, dkeys, dkeys, List.map_append]

theorem secsAux_blank_cons (Y : List Str) (c : Str) (f : Cfg) :
    secsAux ([] :: Y) c f = secsAux Y c f := by
  apply secsAux_cons_skip
  · intro hh
    exact absurd hh.1.1 (by decide)
  · intro hh
    exact absurd hh.2 (by decide)

theorem secsAux_bracket_cons {n : Str} (hne : n ≠ [])
    (hng : ¬ isGlobalPre ('[' :: n ++ [']'])) (Y : List Str) (c : Str) (f : Cfg) :
    secsAux (('[' :: n ++ [']']) :: Y) c f = secEmit c f ++ secsAux Y n [] := by
  have hstrip : pyStrip ('[' :: n ++ [']']) = '[' :: n ++ [']'] := pyStrip_bracket n
  rw [secsAux_cons_header Y (by rw [hstrip]; exact isHeaderLine_bracket n)
    (by rw [hstrip]; exact hng)]
  rw [hstrip, headerName_bracket]

theorem secsAux_cfgLines :
    ∀ (pending : Cfg), (∀ kv ∈ pending, cleanKV kv.1 kv.2) →
      ∀ (acc : Cfg) (rest : List Str) (n : Str), n ≠ [] →
      (dkeys (acc ++ pending)).Nodup →
      secsAux ((pending.map (fun kv => formatShareLine kv.1 kv.2)) ++ rest) n acc =
        secsAux rest n (acc ++ pending) := by
  intro pending
  induction pending with
  | nil =>
    intro _ acc rest n _ _
    rw [List.map_nil, List.nil_append, List.append_nil]
  | cons kv pend ih =>
    obtain ⟨k, v⟩ := kv
    intro hclean acc rest n hne hnd
    have hKV : cleanKV k v := hclean (k, v) (List.mem_cons_self _ _)
    rw [List.map_cons, List.cons_append,
      secsAux_cons_kv _ acc (fun hh => formatShareLine_not_header hKV hh.1) hne
        (formatShareLine_has_eq hKV.2.2.2.1 hKV.2.2.2.2.1),
      formatShareLine_parseKey hKV, formatShareLine_parseVal hKV]
    have hknotin : k ∉ dkeys acc := by
      intro hmem
      rw [dkeys_append, dkeys_cons] at hnd
      obtain ⟨_, _, hdisj⟩ := List.nodup_append.mp hnd
      exact hdisj hmem (List.mem_cons_self _ _)
    rw [dinsert_eq_append v hknotin]
    have hassoc : (acc ++ [(k, v)]) ++ pend = acc ++ ((k, v) :: pend) := by simp
    rw [ih (fun kv2 h2 => hclean kv2 (List.mem_cons_of_mem _ h2)) (acc ++ [(k, v)])
      rest n hne (by rw [hassoc]; exact hnd), hassoc]

theorem secsAux_appendix :
    ∀ (U : Shares), (∀ nc ∈ U, cleanName nc.1 ∧ cleanCfg nc.2) →
      ∀ (c : Str) (f : Cfg),
        secsAux ((U.map (fun nc =>
            [] :: ('[' :: nc.1 ++ [']']) :: nc.2.map (fun kv => formatShareLine kv.1 kv.2))).flatten)
          c f = secEmit c f ++ U := by
  intro U
  induction U with
  | nil =>
    intro _ c f
    rw [List.map_nil, List.flatten_nil, secsAux_nil, List.append_nil]
  | cons nc U ih =>
    obtain ⟨n, cfg⟩ := nc
    intro hclean c f
    have hn : cleanName n := (hclean (n, cfg) (List.mem_cons_self _ _)).1
    have hc : cleanCfg cfg := (hclean (n, cfg) (List.mem_cons_self _ _)).2
    rw [List.map_cons, List.flatten_cons, List.cons_append, List.cons_append,
      secsAux_blank_cons, secsAux_bracket_cons hn.1 hn.2.2,
      secsAux_cfgLines cfg (fun kv h => hc.2.2 kv h) [] _ n hn.1
        (by rw [List.nil_append]; exact hc.2.1),
      List.nil_append,
      ih (fun nc2 h2 => hclean nc2 (List.mem_cons_of_mem _ h2)) n cfg,
      secEmit_pos hn.1 hc.1]
    rfl

/-! ### Splitting the rebuilt document back into lines -/

theorem no_newline_bracket {n : Str} (h : '\n' ∉ n) : '\n' ∉ '[' :: n ++ [']'] := by
  intro hmem
  rcases List.mem_cons.mp hmem with h2 | h2
  · exact absurd h2 (by decide)
  · rcases List.mem_append.mp h2 with h3 | h3
    · exact h h3
    · rw [List.mem_singleton] at h3
      exact absurd h3 (by decide)

theorem no_newline_formatShareLine {k v : Str} (hk : '\n' ∉ k) (hv : '\n' ∉ v) :
    '\n' ∉ formatShareLine k v := by
  intro hmem
  rw [formatShareLine_eq] at hmem
  rcases List.mem_cons.mp hmem with h2 | h2
  · exact absurd h2 (by decide)
  rcases List.mem_cons.mp h2 with h3 | h3
  · exact absurd h3 (by decide)
  rcases List.mem_cons.mp h3 with h4 | h4
  · exact absurd h4 (by decide)
  rcases List.mem_append.mp h4 with h5 | h5
  · exact hk h5
  rcases List.mem_cons.mp h5 with h6 | h6
  · exact absurd h6 (by decide)
  rcases List.mem_cons.mp h6 with h7 | h7
  · exact absurd h7 (by decide)
  rcases List.mem_cons.mp h7 with h8 | h8
  · exact absurd h8 (by decide)
  · exact hv h8

theorem pySplit_format_share {n : Str} {cfg : Cfg}
    (hn : cleanName n) (hc : cleanCfg cfg) :
    pySplit '\n' (format_share_config n cfg) =
      ('[' :: n ++ [']']) :: cfg.map (fun kv => formatShareLine kv.1 kv.2) := by
  rw [format_share_config]
  apply pySplit_pyJoin_free
  · simp
  · intro x hx
    rcases List.mem_cons.mp hx with h2 | h2
    · rw [h2]
      exact no_newline_bracket hn.2.1
    · obtain ⟨kv, hkv, hkv2⟩ := List.mem_map.mp h2
      rw [← hkv2]
      exact no_newline_formatShareLine (hc.2.2 kv hkv).1 (hc.2.2 kv hkv).2.1

theorem mem_rebuildLines :
    ∀ (L : List Str) (mode : Bool), ∀ l ∈ rebuildLines mode L, l ∈ L := by
  intro L
  induction L with
  | nil => intro mode l hl; rw [rebuildLines_nil] at hl; exact absurd hl (List.not_mem_nil l)
  | cons raw rest ih =>
    intro mode l hl
    by_cases hh : isHeaderLine (pyStrip raw)
    · by_cases hr : headerName (pyStrip raw) ∈ reservedRebuild
      · rw [rebuildLines_cons_reserved mode rest hh hr] at hl
        rcases List.mem_cons.mp hl with h2 | h2
        · rw [h2]; exact List.mem_cons_self _ _
        · exact List.mem_cons_of_mem _ (ih false l h2)
      · rw [rebuildLines_cons_user mode rest hh hr] at hl
        exact List.mem_cons_of_mem _ (ih true l hl)
    · cases mode with
      | true =>
        rw [rebuildLines_cons_in rest hh] at hl
        exact List.mem_cons_of_mem _ (ih true l hl)
      | false =>
        rw [rebuildLines_cons_out rest hh] at hl
        rcases List.mem_cons.mp hl with h2 | h2
        · rw [h2]; exact List.mem_cons_self _ _
        · exact List.mem_cons_of_mem _ (ih false l h2)

theorem appendix_split (M : Shares)
    (h : ∀ nc ∈ filterUserShares M, cleanName nc.1 ∧ cleanCfg nc.2) :
    ((rebuildAppendix M).map (pySplit '\n')).flatten =
      ((filterUserShares M).map (fun nc =>
        [] :: ('[' :: nc.1 ++ [']']) :: nc.2.map (fun kv => formatShareLine kv.1 kv.2))).flatten := by
  induction M with
  | nil => rfl
  | cons nc M ih =>
    obtain ⟨n, cfg⟩ := nc
    by_cases hr : n ∈ reservedRebuild
    · have e1 : rebuildAppendix ((n, cfg) :: M) = rebuildAppendix M := by
        rw [rebuildAppendix, rebuildAppendix, List.map_cons, List.flatten_cons]
        rw [if_pos hr, List.nil_append]
      have e2 : filterUserShares ((n, cfg) :: M) = filterUserShares M := by
        rw [filterUserShares, List.filter_cons, if_neg (by simp [hr])]
        rfl
      rw [e1, e2]
      exact ih (fun nc2 h2 => h nc2 (by rw [e2]; exact h2))
    · have e1 : rebuildAppendix ((n, cfg) :: M) =
          [[], format_share_config n cfg] ++ rebuildAppendix M := by
        rw [rebuildAppendix, rebuildAppendix, List.map_cons, List.flatten_cons, if_neg hr]
      have e2 : filterUserShares ((n, cfg) :: M) = (n, cfg) :: filterUserShares M := by
        rw [filterUserShares, List.filter_cons, if_pos (by simpa using hr)]
        rfl
      have hcur : cleanName n ∧ cleanCfg cfg := by
        apply h (n, cfg)
        rw [e2]
        exact List.mem_cons_self _ _
      rw [e1, e2, List.map_append, List.flatten_append, List.map_cons, List.flatten_cons,
        List.map_cons, List.flatten_cons]
      rw [show pySplit '\n' [] = [[]] from rfl,
        pySplit_format_share hcur.1 hcur.2,
        ih (fun nc2 h2 => h nc2 (by rw [e2]; exact List.mem_cons_of_mem _ h2))]
      simp

/-! ### Assembling the rebuilt-document parse -/

theorem rebuildAppendix_nil_users {M : Shares} (h : rebuildAppendix M = []) :
    filterUserShares M = [] := by
  induction M with
  | nil => rfl
  | cons nc M ih =>
    obtain ⟨n, cfg⟩ := nc
    rw [rebuildAppendix, List.map_cons, List.flatten_cons] at h
    by_cases hr : n ∈ reservedRebuild
    · rw [if_pos hr, List.nil_append] at h
      rw [filterUserShares, List.filter_cons, if_neg (by simp [hr])]
      exact ih h
    · rw [if_neg hr] at h
      exact absurd h (by simp)

theorem secs_rebuilt_split (content : Str) (M : Shares)
    (h : ∀ nc ∈ filterUserShares M, cleanName nc.1 ∧ cleanCfg nc.2) :
    secsAux (pySplit '\n' (rebuild_config_content content M)) [] [] =
      secsAux (rebuildLines false (pySplit '\n' content) ++ appendixLines M) [] [] := by
  rw [rebuild_config_content]
  by_cases hNL : rebuildLines false (pySplit '\n' content) ++ rebuildAppendix M = []
  · obtain ⟨hP0, hA0⟩ := List.append_eq_nil.mp hNL
    have hU0 : filterUserShares M = [] := rebuildAppendix_nil_users hA0
    rw [hNL]
    rw [show pyJoin '\n' ([] : List Str) = [] from rfl,
      show pySplit '\n' [] = [[]] from rfl]
    rw [hP0, appendixLines, hU0, List.map_nil, List.flatten_nil, List.nil_append,
      show ([[]] : List Str) = [] :: [] from rfl, secsAux_blank_cons]
  · rw [pySplit_pyJoin_flat '\n' _ hNL, List.map_append, List.flatten_append]
    have hPfree : List.map (pySplit '\n') (rebuildLines false (pySplit '\n' content)) =
        List.map (fun p => [p]) (rebuildLines false (pySplit '\n' content)) := by
      apply List.map_congr_left
      intro p hp
      exact pySplit_of_not_mem
        (not_mem_pySplit '\n' content p (mem_rebuildLines _ false p hp))
    rw [hPfree, flatten_singleton_map, appendix_split M h]
    rfl

theorem secsAux_P_A (P : List Str) (M : Shares)
    (h : ∀ nc ∈ filterUserShares M, cleanName nc.1 ∧ cleanCfg nc.2) :
    secsAux (P ++ appendixLines M) [] [] = secsAux P [] [] ++ filterUserShares M := by
  rw [secsAux_append, appendixLines, secsAux_appendix (filterUserShares M) h,
    secsAux_eq_emAux, List.append_assoc]

theorem secsP_filter (content : Str) (hwf : wfDoc content) :
    secsAux (rebuildLines false (pySplit '\n' content)) [] [] =
      filterReserved (secsAux (pySplit '\n' content) [] []) := by
  rw [wfDoc, wfDocLines] at hwf
  rcases hwf with hng | ⟨L1, g, L2, hL, hL1, hg, hng⟩
  · have hfg := secsAux_rebuildLines (pySplit '\n' content) false [] [] [] [] hng (Or.inl rfl)
      (fun h => absurd h (by decide)) (fun _ => ⟨rfl, rfl⟩)
    rw [hfg, if_neg (by decide), List.nil_append]
  · rw [hL, rebuildLines_noheader_prefix L1 hL1 (g :: L2), rebuildLines_global_cons hg false L2,
      secsAux_noheader_prefix L1 hL1 (g :: rebuildLines false L2) [],
      secsAux_global_cons hg (rebuildLines false L2) [] [],
      secsAux_noheader_prefix L1 hL1 (g :: L2) [],
      secsAux_global_cons hg L2 [] []]
    have hfg := secsAux_rebuildLines L2 false [] [] [] [] hng (Or.inl rfl)
      (fun h => absurd h (by decide)) (fun _ => ⟨rfl, rfl⟩)
    rw [hfg, if_neg (by decide), List.nil_append]

theorem parse_rebuild_eq (content : Str) (M : Shares) (hwf : wfDoc content)
    (h : ∀ nc ∈ filterUserShares M, cleanName nc.1 ∧ cleanCfg nc.2) :
    parse_shares (rebuild_config_content content M) =
      dinsertList (filterUserShares M)
        (filterReserved (parse_shares content)) := by
  rw [parse_shares_eq_secs, secs_rebuilt_split content M h, secsAux_P_A _ M h,
    secsP_filter content hwf, dinsertList_append]
  congr 1
  rw [parse_shares_eq_secs]
  have hfr : ∀ t : List (Str × Cfg), filterReserved t =
      t.filter (fun kv => (fun k => decide (k ∈ reservedRebuild)) kv.1) := fun t => rfl
  rw [hfr, hfr,
    filter_dinsertList (fun k => decide (k ∈ reservedRebuild))
      (secsAux (pySplit '\n' content) [] []) []]
  rfl

/-! ### Heads and tails through `pyStrip` -/

theorem dropWhile_append_nil {p : Char → Bool} {Y : Str} (h : Y.dropWhile p = [])
    (Z : Str) : (Y ++ Z).dropWhile p = Z.dropWhile p := by
  induction Y with
  | nil => rw [List.nil_append]
  | cons a t ih =>
    rw [List.dropWhile_cons] at h
    by_cases ha : p a = true
    · rw [if_pos ha] at h
      rw [List.cons_append, List.dropWhile_cons, if_pos ha]
      exact ih h
    · rw [if_neg (by simpa using ha)] at h
      exact absurd h (by simp)

theorem dropWhile_append_cons {p : Char → Bool} {Y : Str} {c : Char} {t : Str}
    (h : Y.dropWhile p = c :: t) (Z : Str) :
    (Y ++ Z).dropWhile p = (c :: t) ++ Z := by
  induction Y with
  | nil => exact absurd h (by simp)
  | cons a u ih =>
    rw [List.dropWhile_cons] at h
    by_cases ha : p a = true
    · rw [if_pos ha] at h
      rw [List.cons_append, List.dropWhile_cons, if_pos ha]
      exact ih h
    · rw [if_neg (by simpa using ha)] at h
      cases h
      rw [List.cons_append, List.dropWhile_cons, if_neg (by simpa using ha)]

theorem getLast?_dropWhile_concat {p : Char → Bool} {c : Char} (hc : p c = false)
    (Y : Str) : ((Y ++ [c]).dropWhile p).getLast? = some c := by
  cases hy : Y.dropWhile p with
  | nil =>
    rw [dropWhile_append_nil hy, List.dropWhile_cons, if_neg (by simp [hc])]
    rfl
  | cons a t =>
    rw [dropWhile_append_cons hy]
    exact List.getLast?_concat _

theorem pyStrip_head?_cons {c : Char} (hc : isPySpace c = false) (X : Str) :
    (pyStrip (c :: X)).head? = some c := by
  have h1 : List.dropWhile isPySpace (c :: X) = c :: X := by
    rw [List.dropWhile_cons, if_neg (by simp [hc])]
  rw [pyStrip, h1, List.head?_reverse,
    show (c :: X).reverse = X.reverse ++ [c] by simp]
  exact getLast?_dropWhile_concat hc X.reverse

theorem getLast?_pyStrip_concat {d : Char} (hd : isPySpace d = false) (Y : Str) :
    (pyStrip (Y ++ [d])).getLast? = some d := by
  rw [pyStrip, List.getLast?_reverse]
  cases hy : Y.dropWhile isPySpace with
  | nil =>
    rw [dropWhile_append_nil hy [d], List.dropWhile_cons, if_neg (by simp [hd]),
      List.reverse_singleton, List.dropWhile_cons, if_neg (by simp [hd])]
    rfl
  | cons a t =>
    rw [dropWhile_append_cons hy [d],
      show ((a :: t) ++ [d]).reverse = d :: (a :: t).reverse by simp,
      List.dropWhile_cons, if_neg (by simp [hd])]
    rfl

theorem suffix_getLast? {A B : Str} (h : A <:+ B) (hA : A ≠ []) :
    A.getLast? = B.getLast? := by
  obtain ⟨z, rfl⟩ := h
  rw [List.getLast?_append_of_ne_nil z hA]

theorem pyStrip_nil : pyStrip [] = [] := rfl

theorem ne_nil_of_pyStrip {B : Str} (h : pyStrip B ≠ []) : B ≠ [] := by
  intro h0
  rw [h0, pyStrip_nil] at h
  exact h rfl

/-! ### Cleanliness of parser-produced keys and values -/

theorem parse_pair_clean {line : Str} (hline : pyStrip line = line)
    (hnl : '\n' ∉ line) (hnh : ¬ isHeaderLine line) (heq : '=' ∈ line) :
    cleanKV (parseKey line) (parseVal line) := by
  refine ⟨?_, ?_, ?_, pyStrip_idem _, pyStrip_idem _, ?_⟩
  · intro hmem
    exact hnl ((List.takeWhile_sublist _).subset (mem_of_mem_pyStrip hmem))
  · intro hmem
    exact hnl ((List.dropWhile_sublist _).subset
      ((List.drop_sublist 1 _).subset (mem_of_mem_pyStrip hmem)))
  · intro hmem
    have h2 := List.mem_takeWhile_imp (mem_of_mem_pyStrip hmem)
    simp at h2
  · rintro ⟨hpre, hsuf⟩
    apply hnh
    rw [singleton_prefix_head] at hpre
    rw [singleton_suffix_last] at hsuf
    constructor
    · obtain ⟨c, rest, hcr⟩ := List.exists_cons_of_ne_nil
        (show line ≠ [] from fun h0 => by rw [h0] at heq; exact List.not_mem_nil '=' heq)
      have hcs : isPySpace c = false := pyStrip_head_false (hline.trans hcr)
      by_cases hce : c = '='
      · rw [parseKey, hcr, List.takeWhile_cons, if_neg (by simp [hce])] at hpre
        exact absurd hpre (by simp [pyStrip_nil])
      · rw [parseKey, hcr, List.takeWhile_cons, if_pos (by simp [hce]),
          pyStrip_head?_cons hcs] at hpre
        rw [singleton_prefix_head, hcr]
        simp only [List.head?_cons]
        exact hpre
    · have hvne : parseVal line ≠ [] := by
        intro h0
        rw [h0] at hsuf
        exact Option.noConfusion hsuf
      have hBne : (line.dropWhile (fun c => c ≠ '=')).drop 1 ≠ [] :=
        ne_nil_of_pyStrip (by rw [← parseVal]; exact hvne)
      have hBsuf : (line.dropWhile (fun c => c ≠ '=')).drop 1 <:+ line := by
        have h1 : (line.dropWhile (fun c => c ≠ '=')).drop 1 <:+
            line.dropWhile (fun c => c ≠ '=') := List.drop_suffix 1 _
        obtain ⟨z, hz⟩ := dropWhile_suffix_list (fun c => decide (c ≠ '=')) line
        exact h1.trans ⟨z, hz.symm⟩
      have hlineB : ((line.dropWhile (fun c => c ≠ '=')).drop 1).getLast? =
          line.getLast? := suffix_getLast? hBsuf hBne
      obtain ⟨d, hd⟩ : ∃ d, line.getLast? = some d := by
        cases hq : line.getLast? with
        | none =>
          rw [List.getLast?_eq_none_iff] at hq
          rw [hq] at heq
          exact absurd heq (List.not_mem_nil '=')
        | some d => exact ⟨d, rfl⟩
      have hds : isPySpace d = false := pyStrip_last_false (by rw [hline]; exact hd)
      have hBd : (line.dropWhile (fun c => c ≠ '=')).drop 1 =
          ((line.dropWhile (fun c => c ≠ '=')).drop 1).dropLast ++ [d] :=
        getLast?_concat_decomp (by rw [hlineB]; exact hd)
      rw [parseVal, hBd, getLast?_pyStrip_concat hds] at hsuf
      rw [singleton_suffix_last, hd]
      exact hsuf

/-! ### Every section the parser emits is clean -/

theorem headerName_clean {raw : Str} (hnl : '\n' ∉ raw)
    (hh : isHeaderLine (pyStrip raw)) (hg : ¬ isGlobalPre (pyStrip raw))
    (hne : headerName (pyStrip raw) ≠ []) : cleanName (headerName (pyStrip raw)) := by
  have hshape := headerLine_shape hh
  refine ⟨hne, ?_, ?_⟩
  · intro hmem
    apply hnl
    apply mem_of_mem_pyStrip (s := raw)
    rw [hshape]
    exact List.mem_cons_of_mem _ (List.mem_append_left _ hmem)
  · rw [List.cons_append, ← hshape]
    exact hg

theorem mem_secEmit {cur : Str} {cfg : Cfg} :
    ∀ nc ∈ secEmit cur cfg, nc = (cur, cfg) ∧ cur ≠ [] ∧ cfg ≠ [] := by
  intro nc h
  rw [secEmit] at h
  by_cases hc : cur ≠ [] ∧ cfg ≠ []
  · rw [if_pos hc] at h
    exact ⟨List.mem_singleton.mp h, hc⟩
  · rw [if_neg hc] at h
    exact absurd h (List.not_mem_nil nc)

theorem secsAux_entries_clean :
    ∀ (L : List Str), (∀ raw ∈ L, '\n' ∉ raw) →
      (∀ raw ∈ L, isHeaderLine (pyStrip raw) → isGlobalPre (pyStrip raw) →
        '=' ∉ pyStrip raw) →
      ∀ (cur : Str) (cfg : Cfg),
        (cur ≠ [] → cleanName cur) →
        (dkeys cfg).Nodup → (∀ kv ∈ cfg, cleanKV kv.1 kv.2) →
        ∀ nc ∈ secsAux L cur cfg, cleanName nc.1 ∧ cleanCfg nc.2 := by
  intro L
  induction L with
  | nil =>
    intro _ _ cur cfg hcur hnd hkv nc hmem
    rw [secsAux_nil] at hmem
    obtain ⟨rfl, hc1, hc2⟩ := mem_secEmit nc hmem
    exact ⟨hcur hc1, hc2, hnd, hkv⟩
  | cons raw rest ih =>
    intro hnl hng cur cfg hcur hnd hkv nc hmem
    have hnlr : '\n' ∉ raw := hnl raw (List.mem_cons_self _ _)
    have hnl2 : ∀ l ∈ rest, '\n' ∉ l := fun l hl => hnl l (List.mem_cons_of_mem _ hl)
    have hng2 : ∀ l ∈ rest, isHeaderLine (pyStrip l) → isGlobalPre (pyStrip l) →
        '=' ∉ pyStrip l := fun l hl => hng l (List.mem_cons_of_mem _ hl)
    by_cases h1 : isHeaderLine (pyStrip raw) ∧ ¬ isGlobalPre (pyStrip raw)
    · rw [secsAux_cons_header rest h1.1 h1.2] at hmem
      rcases List.mem_append.mp hmem with h2 | h2
      · obtain ⟨rfl, hc1, hc2⟩ := mem_secEmit nc h2
        exact ⟨hcur hc1, hc2, hnd, hkv⟩
      · exact ih hnl2 hng2 _ []
          (fun hne => headerName_clean hnlr h1.1 h1.2 hne)
          (by rw [dkeys_nil]; exact List.nodup_nil)
          (fun kv h => absurd h (List.not_mem_nil kv)) nc h2
    · by_cases h2 : cur ≠ [] ∧ '=' ∈ pyStrip raw
      · rw [secsAux_cons_kv rest cfg h1 h2.1 h2.2] at hmem
        have hnh : ¬ isHeaderLine (pyStrip raw) := by
          intro hh
          by_cases hgl : isGlobalPre (pyStrip raw)
          · exact hng raw (List.mem_cons_self _ _) hh hgl h2.2
          · exact h1 ⟨hh, hgl⟩
        have hKV := parse_pair_clean (pyStrip_idem raw)
          (fun hm => hnlr (mem_of_mem_pyStrip hm)) hnh h2.2
        refine ih hnl2 hng2 cur _ hcur (nodup_dkeys_dinsert _ _ hnd) ?_ nc hmem
        intro kv h
        rcases mem_dinsert kv h with h3 | h3
        · rw [h3]
          exact hKV
        · exact hkv kv h3
      · rw [secsAux_cons_skip rest cfg h1 h2] at hmem
        exact ih hnl2 hng2 cur cfg hcur hnd hkv nc hmem

theorem nodup_dkeys_dinsertList {β : Type} (E : List (Str × β)) :
    ∀ m, (dkeys m).Nodup → (dkeys (dinsertList E m)).Nodup := by
  induction E with
  | nil => intro m h; exact h
  | cons kv rest ih =>
    obtain ⟨k, v⟩ := kv
    intro m h
    rw [dinsertList_cons]
    exact ih _ (nodup_dkeys_dinsert k v h)

theorem mem_dinsertList {β : Type} {E : List (Str × β)} :
    ∀ {m kv}, kv ∈ dinsertList E m → kv ∈ E ∨ kv ∈ m := by
  induction E with
  | nil => intro m kv h; exact Or.inr h
  | cons kv1 rest ih =>
    obtain ⟨k, v⟩ := kv1
    intro m kv h
    rw [dinsertList_cons] at h
    rcases ih h with h2 | h2
    · exact Or.inl (List.mem_cons_of_mem _ h2)
    · rcases mem_dinsert kv h2 with h3 | h3
      · exact Or.inl (by rw [h3]; exact List.mem_cons_self _ _)
      · exact Or.inr h3

theorem wf_glob_no_eq {content : Str} (hwf : wfDoc content) :
    ∀ raw ∈ pySplit '\n' content, isHeaderLine (pyStrip raw) →
      isGlobalPre (pyStrip raw) → '=' ∉ pyStrip raw := by
  rw [wfDoc, wfDocLines] at hwf
  rcases hwf with hng | ⟨L1, g, L2, hL, hL1, hg, hng⟩
  · intro raw hmem _ hgl
    exact absurd hgl (hng raw hmem)
  · intro raw hmem hh hgl
    rw [hL] at hmem
    rcases List.mem_append.mp hmem with h2 | h2
    · exact absurd hh (hL1 raw h2)
    · rcases List.mem_cons.mp h2 with h3 | h3
      · rw [h3, hg]
        decide
      · exact absurd hgl (hng raw h3)

theorem parse_shares_cleanShares (content : Str) (hwf : wfDoc content) :
    cleanShares (parse_shares content) := by
  rw [parse_shares_eq_secs]
  constructor
  · exact nodup_dkeys_dinsertList _ [] (by rw [dkeys_nil]; exact List.nodup_nil)
  · intro nc hmem
    rcases mem_dinsertList hmem with h2 | h2
    · exact secsAux_entries_clean (pySplit '\n' content)
        (fun raw hr hm => not_mem_pySplit '\n' content raw hr hm)
        (wf_glob_no_eq hwf) [] []
        (fun hne => absurd rfl hne)
        (by rw [dkeys_nil]; exact List.nodup_nil)
        (fun kv h => absurd h (List.not_mem_nil kv)) nc h2
    · exact absurd h2 (List.not_mem_nil nc)

/-! ### Mutations preserve cleanliness and reserved entries -/

theorem newShareConfig_clean {u p b cm dm : Str} (hu : cleanVal u) (hp : cleanVal p)
    (hb : cleanVal b) (hcm : cleanVal cm) (hdm : cleanVal dm) :
    cleanCfg (newShareConfig u p b cm dm) := by
  have hval : ∀ v : Str, cleanVal v → ∀ k : Str, '\n' ∉ k → '=' ∉ k → pyStrip k = k →
      ¬ (['['] <+: k) → cleanKV k v := by
    intro v hv k h1 h2 h3 h4
    exact ⟨h1, hv.1, h2, h3, hv.2, fun hh => h4 hh.1⟩
  have hkeys : dkeys (newShareConfig u p b cm dm) =
      ["path".toList, "valid users".toList, "read only".toList, "browseable".toList,
       "create mask".toList, "directory mask".toList] := rfl
  refine ⟨by simp [newShareConfig], by rw [hkeys]; decide, ?_⟩
  intro kv hkv
  rw [newShareConfig] at hkv
  rcases List.mem_cons.mp hkv with h | hkv
  · rw [h]
    show cleanKV ("path".toList) p
    exact hval p hp _ (by decide) (by decide) (by decide) (by decide)
  rcases List.mem_cons.mp hkv with h | hkv
  · rw [h]
    show cleanKV ("valid users".toList) u
    exact hval u hu _ (by decide) (by decide) (by decide) (by decide)
  rcases List.mem_cons.mp hkv with h | hkv
  · rw [h]
    show cleanKV ("read only".toList) ("no".toList)
    exact hval ("no".toList) ⟨by decide, by decide⟩ _ (by decide) (by decide) (by decide)
      (by decide)
  rcases List.mem_cons.mp hkv with h | hkv
  · rw [h]
    show cleanKV ("browseable".toList) b
    exact hval b hb _ (by decide) (by decide) (by decide) (by decide)
  rcases List.mem_cons.mp hkv with h | hkv
  · rw [h]
    show cleanKV ("create mask".toList) cm
    exact hval cm hcm _ (by decide) (by decide) (by decide) (by decide)
  rcases List.mem_cons.mp hkv with h | hkv
  · rw [h]
    show cleanKV ("directory mask".toList) dm
    exact hval dm hdm _ (by decide) (by decide) (by decide) (by decide)
  · exact absurd hkv (List.not_mem_nil kv)

theorem cleanShares_applyOp {M : Shares} (h : cleanShares M) {op : ShareOp}
    (hop : cleanOp op) : cleanShares (applyOp M op) := by
  cases op with
  | add u p b w g cm dm =>
    obtain ⟨_, hn, hu, hp, hb, hcm, hdm⟩ := hop
    rw [applyOp, add_share_map]
    by_cases hk : hasKey u M = true
    · rw [if_pos hk]; exact h
    · rw [if_neg hk]
      constructor
      · exact nodup_dkeys_dinsert _ _ h.1
      · intro nc hmem
        rcases mem_dinsert nc hmem with h2 | h2
        · rw [h2]
          exact ⟨hn, newShareConfig_clean hu hp hb hcm hdm⟩
        · exact h.2 nc h2
  | remove u =>
    rw [applyOp, remove_share_map]
    by_cases hk : hasKey u M = true
    · rw [if_pos hk]
      exact ⟨nodup_dkeys_ddel u h.1, fun nc hmem => h.2 nc (mem_ddel nc hmem)⟩
    · rw [if_neg hk]; exact h
  | update u patch =>
    obtain ⟨_, hnd, hpatch⟩ := hop
    rw [applyOp, update_share_map]
    by_cases hk : hasKey u M = true
    · rw [if_pos hk]
      constructor
      · rw [dkeys_dmodify]; exact h.1
      · intro nc hmem
        rcases mem_dmodify nc hmem with h2 | ⟨w, hw1, hw2⟩
        · exact h.2 nc h2
        · have hold := h.2 (nc.1, w) hw1
          rw [hw2]
          refine ⟨hold.1, dupdate_ne_nil hold.2.1 patch,
            nodup_dkeys_dupdate hold.2.2.1 patch, ?_⟩
          intro kv hkv
          rcases mem_dupdate kv hkv with h3 | h3
          · exact hold.2.2.2 kv h3
          · exact hpatch kv h3
    · rw [if_neg hk]; exact h

theorem cleanShares_applyOps {M : Shares} (h : cleanShares M) {ops : List ShareOp}
    (hops : ∀ op ∈ ops, cleanOp op) : cleanShares (applyOps ops M) := by
  induction ops generalizing M with
  | nil => exact h
  | cons op rest ih =>
    rw [applyOps, List.foldl_cons]
    exact ih (cleanShares_applyOp h (hops op (List.mem_cons_self _ _)))
      (fun op2 h2 => hops op2 (List.mem_cons_of_mem _ h2))

theorem dlookup_applyOp_reserved {M : Shares} {op : ShareOp} (hop : cleanOp op)
    {n : Str} (hn : n ∈ reservedRebuild) : dlookup n (applyOp M op) = dlookup n M := by
  cases op with
  | add u p b w g cm dm =>
    rw [applyOp, add_share_map]
    by_cases hk : hasKey u M = true
    · rw [if_pos hk]
    · rw [if_neg hk, dlookup_dinsert_ne (fun hh => hop.1 (by rw [← hh]; exact hn))]
  | remove u =>
    rw [applyOp, remove_share_map]
    by_cases hk : hasKey u M = true
    · rw [if_pos hk, dlookup_ddel_ne (fun hh => hop (by rw [← hh]; exact hn))]
    · rw [if_neg hk]
  | update u patch =>
    rw [applyOp, update_share_map]
    by_cases hk : hasKey u M = true
    · rw [if_pos hk, dlookup_dmodify_ne (fun hh => hop.1 (by rw [← hh]; exact hn))]
    · rw [if_neg hk]

theorem dlookup_applyOps_reserved {ops : List ShareOp} (hops : ∀ op ∈ ops, cleanOp op)
    {n : Str} (hn : n ∈ reservedRebuild) :
    ∀ M, dlookup n (applyOps ops M) = dlookup n M := by
  induction ops with
  | nil => intro M; rfl
  | cons op rest ih =>
    intro M
    rw [applyOps, List.foldl_cons]
    rw [show List.foldl applyOp (applyOp M op) rest = applyOps rest (applyOp M op) from rfl]
    rw [ih (fun op2 h2 => hops op2 (List.mem_cons_of_mem _ h2)),
      dlookup_applyOp_reserved (hops op (List.mem_cons_self _ _)) hn]

theorem dkeys_filterUser_not_reserved {M : Shares} {n : Str}
    (h : n ∈ dkeys (filterUserShares M)) : n ∉ reservedRebuild := by
  rw [dkeys] at h
  obtain ⟨kv, hkv, hfst⟩ := List.mem_map.mp h
  rw [filterUserShares] at hkv
  have := List.of_mem_filter hkv
  rw [hfst] at this
  simpa using this

theorem dkeys_filterUser_mem {M : Shares} {n : Str} (hn : n ∉ reservedRebuild)
    (h : n ∈ dkeys M) : n ∈ dkeys (filterUserShares M) := by
  rw [dkeys] at h
  obtain ⟨kv, hkv, hfst⟩ := List.mem_map.mp h
  rw [dkeys]
  refine List.mem_map.mpr ⟨kv, ?_, hfst⟩
  rw [filterUserShares]
  apply List.mem_filter.mpr
  refine ⟨hkv, ?_⟩
  rw [hfst]
  simpa using hn

/-- The workhorse for the mutate-then-write claims: writing any clean
    section map whose reserved entries agree with the document's own
    produces a document that parses back, pointwise, to that map. -/
theorem parse_rebuild_pointwise (content : Str) (M : Shares) (hwf : wfDoc content)
    (hMclean : cleanShares M)
    (hresM : ∀ m ∈ reservedRebuild, dlookup m M = dlookup m (parse_shares content)) :
    ∀ n, dlookup n (parse_shares (rebuild_config_content content M)) = dlookup n M := by
  intro n
  have hUclean : ∀ nc ∈ filterUserShares M, cleanName nc.1 ∧ cleanCfg nc.2 := by
    intro nc h
    rw [filterUserShares] at h
    exact hMclean.2 nc ((List.filter_sublist M).subset h)
  rw [parse_rebuild_eq content M hwf hUclean]
  have hUnodup : (dkeys (filterUserShares M)).Nodup := by
    have hs : (filterUserShares M).Sublist M := by
      rw [filterUserShares]
      exact List.filter_sublist M
    exact (hs.map Prod.fst).nodup hMclean.1
  by_cases hres : n ∈ reservedRebuild
  · have hnot : n ∉ dkeys (filterUserShares M) :=
      fun h => dkeys_filterUser_not_reserved h hres
    rw [dlookup_dinsertList_not_mem hnot]
    have e1 : filterReserved (parse_shares content) =
        (parse_shares content).filter
          (fun kv => (fun k => decide (k ∈ reservedRebuild)) kv.1) := rfl
    rw [e1, dlookup_filter_pos (p := fun k => decide (k ∈ reservedRebuild))
      (by simpa using hres) (parse_shares content)]
    exact (hresM n hres).symm
  · by_cases hk : n ∈ dkeys (filterUserShares M)
    · rw [dlookup_dinsertList_mem hUnodup hk]
      have e2 : filterUserShares M =
          M.filter (fun kv => (fun k => decide (k ∉ reservedRebuild)) kv.1) := rfl
      rw [e2, dlookup_filter_pos (p := fun k => decide (k ∉ reservedRebuild))
        (by simpa using hres) M]
    · rw [dlookup_dinsertList_not_mem hk]
      have h1 : dlookup n (filterReserved (parse_shares content)) = none := by
        have e1 : filterReserved (parse_shares content) =
            (parse_shares content).filter
              (fun kv => (fun k => decide (k ∈ reservedRebuild)) kv.1) := rfl
        rw [e1]
        exact dlookup_filter_neg (p := fun k => decide (k ∈ reservedRebuild))
          (by simpa using hres) _
      rw [h1]
      symm
      rw [dlookup_eq_none_iff]
      intro hmem
      exact hk (dkeys_filterUser_mem hres hmem)

/-! ### Where parsed section names come from -/

theorem secsAux_name_mem :
    ∀ (L : List Str) (cur : Str) (cfg : Cfg), ∀ nc ∈ secsAux L cur cfg,
      (nc.1 = cur ∧ cur ≠ []) ∨
        ∃ raw ∈ L, isHeaderLine (pyStrip raw) ∧ ¬ isGlobalPre (pyStrip raw) ∧
          nc.1 = headerName (pyStrip raw) := by
  intro L
  induction L with
  | nil =>
    intro cur cfg nc h
    rw [secsAux_nil] at h
    obtain ⟨he, h1, _⟩ := mem_secEmit nc h
    exact Or.inl ⟨by rw [he], h1⟩
  | cons raw rest ih =>
    intro cur cfg nc h
    by_cases h1 : isHeaderLine (pyStrip raw) ∧ ¬ isGlobalPre (pyStrip raw)
    · rw [secsAux_cons_header rest h1.1 h1.2] at h
      rcases List.mem_append.mp h with h2 | h2
      · obtain ⟨he, hc, _⟩ := mem_secEmit nc h2
        exact Or.inl ⟨by rw [he], hc⟩
      · rcases ih (headerName (pyStrip raw)) [] nc h2 with h3 | h3
        · exact Or.inr ⟨raw, List.mem_cons_self _ _, h1.1, h1.2, h3.1⟩
        · obtain ⟨r2, hr2, hh⟩ := h3
          exact Or.inr ⟨r2, List.mem_cons_of_mem _ hr2, hh⟩
    · by_cases h2 : cur ≠ [] ∧ '=' ∈ pyStrip raw
      · rw [secsAux_cons_kv rest cfg h1 h2.1 h2.2] at h
        rcases ih cur _ nc h with h3 | h3
        · exact Or.inl h3
        · obtain ⟨r2, hr2, hh⟩ := h3
          exact Or.inr ⟨r2, List.mem_cons_of_mem _ hr2, hh⟩
      · rw [secsAux_cons_skip rest cfg h1 h2] at h
        rcases ih cur cfg nc h with h3 | h3
        · exact Or.inl h3
        · obtain ⟨r2, hr2, hh⟩ := h3
          exact Or.inr ⟨r2, List.mem_cons_of_mem _ hr2, hh⟩

theorem parse_name_from_header {content : Str} {nc : Str × Cfg}
    (h : nc ∈ parse_shares content) :
    ∃ raw ∈ pySplit '\n' content, isHeaderLine (pyStrip raw) ∧
      ¬ isGlobalPre (pyStrip raw) ∧ nc.1 = headerName (pyStrip raw) := by
  rw [parse_shares_eq_secs] at h
  rcases mem_dinsertList h with h2 | h2
  · rcases secsAux_name_mem _ [] [] nc h2 with h3 | h3
    · exact absurd rfl h3.2
    · exact h3
  · exact absurd h2 (List.not_mem_nil nc)

theorem headerName_global_imp {l : Str} (h1 : isHeaderLine l)
    (h2 : headerName l = "global".toList) : isGlobalPre l := by
  have hs := headerLine_shape h1
  rw [h2] at hs
  rw [hs]
  decide

theorem global_not_parsed (content : Str) :
    dlookup ("global".toList) (parse_shares content) = none := by
  rw [dlookup_eq_none_iff]
  intro hmem
  rw [dkeys] at hmem
  obtain ⟨nc, hnc, he⟩ := List.mem_map.mp hmem
  obtain ⟨raw, _, hh, hg, hn⟩ := parse_name_from_header hnc
  exact hg (headerName_global_imp hh (by rw [← hn]; exact he))

/-! ### The rebuild scan is the identity on reserved-only documents -/

theorem rebuildAppendix_cons (nc : Str × Cfg) (rest : Shares) :
    rebuildAppendix (nc :: rest) =
      (if nc.1 ∈ reservedRebuild then [] else [[], format_share_config nc.1 nc.2]) ++
        rebuildAppendix rest := by
  rw [rebuildAppendix, rebuildAppendix, List.map_cons, List.flatten_cons]

theorem rebuildAppendix_reserved {m : Shares} (h : ∀ nc ∈ m, nc.1 ∈ reservedRebuild) :
    rebuildAppendix m = [] := by
  induction m with
  | nil => rfl
  | cons nc rest ih =>
    rw [rebuildAppendix_cons, if_pos (h nc (List.mem_cons_self _ _)), List.nil_append]
    exact ih (fun x hx => h x (List.mem_cons_of_mem _ hx))

theorem rebuildLines_id :
    ∀ L : List Str, (∀ raw ∈ L, isHeaderLine (pyStrip raw) →
      headerName (pyStrip raw) ∈ reservedRebuild) → rebuildLines false L = L := by
  intro L
  induction L with
  | nil => intro _; rfl
  | cons raw rest ih =>
    intro h
    by_cases h1 : isHeaderLine (pyStrip raw)
    · rw [rebuildLines_cons_reserved false rest h1 (h raw (List.mem_cons_self _ _) h1)]
      rw [ih (fun x hx hh => h x (List.mem_cons_of_mem _ hx) hh)]
    · rw [rebuildLines_cons_out rest h1]
      rw [ih (fun x hx hh => h x (List.mem_cons_of_mem _ hx) hh)]

/-! ### Claim theorems -/

/-- C1 (amended): referential transparency of the rebuild, under the
    well-formedness the code actually guarantees.  For a document whose
    `[global]` header (if any) is exactly `[global]` and comes before
    every other section header, and for any sequence of add/remove/update
    mutations whose usernames avoid the rebuilder's reserved list and
    whose data is newline-free and pre-stripped, parsing the rebuilt
    document agrees, section by section and key by key, with the mutated
    in-memory section map. -/
theorem c1_rebuild_referential_transparency (content : Str) (ops : List ShareOp)
    (hwf : wfDoc content) (hops : ∀ op ∈ ops, cleanOp op) :
    ∀ n, dlookup n (parse_shares (rebuild_config_content content
        (applyOps ops (parse_shares content)))) =
      dlookup n (applyOps ops (parse_shares content)) :=
  parse_rebuild_pointwise content (applyOps ops (parse_shares content)) hwf
    (cleanShares_applyOps (parse_shares_cleanShares content hwf) hops)
    (fun m hm => dlookup_applyOps_reserved hops hm (parse_shares content))

/-- C1 counterexample: with a trailing `[global]` block, the rebuild is
    not referentially transparent even for the empty operation sequence —
    the kept `[global]` header is skipped on reparse, so its settings
    leak into `printers`. -/
theorem c1_counterexample :
    parse_shares (rebuild_config_content
        ("[printers]\np = 1\n[eric]\npath = /a\n[global]\nw = 2".toList)
        (applyOps [] (parse_shares
          ("[printers]\np = 1\n[eric]\npath = /a\n[global]\nw = 2".toList)))) ≠
      applyOps [] (parse_shares
        ("[printers]\np = 1\n[eric]\npath = /a\n[global]\nw = 2".toList)) := by
  decide

theorem c1_witness :
    wfDoc ("[printers]\ncomment = All Printers\n[eric]\npath = /home/eric\nvalid users = eric".toList) ∧
    (∀ op ∈ [ShareOp.add ("joao".toList) ("/srv/joao".toList) ("yes".toList)
        ("yes".toList) ("no".toList) ("0660".toList) ("0770".toList),
      ShareOp.remove ("eric".toList),
      ShareOp.update ("joao".toList) [("browseable".toList, "no".toList)]], cleanOp op) ∧
    ∀ n, dlookup n (parse_shares (rebuild_config_content
        ("[printers]\ncomment = All Printers\n[eric]\npath = /home/eric\nvalid users = eric".toList)
        (applyOps [ShareOp.add ("joao".toList) ("/srv/joao".toList) ("yes".toList)
            ("yes".toList) ("no".toList) ("0660".toList) ("0770".toList),
          ShareOp.remove ("eric".toList),
          ShareOp.update ("joao".toList) [("browseable".toList, "no".toList)]]
          (parse_shares ("[printers]\ncomment = All Printers\n[eric]\npath = /home/eric\nvalid users = eric".toList))))) =
      dlookup n (applyOps [ShareOp.add ("joao".toList) ("/srv/joao".toList) ("yes".toList)
            ("yes".toList) ("no".toList) ("0660".toList) ("0770".toList),
          ShareOp.remove ("eric".toList),
          ShareOp.update ("joao".toList) [("browseable".toList, "no".toList)]]
          (parse_shares ("[printers]\ncomment = All Printers\n[eric]\npath = /home/eric\nvalid users = eric".toList))) :=
  ⟨Or.inl (by decide), by decide,
    c1_rebuild_referential_transparency _ _ (Or.inl (by decide)) (by decide)⟩

/-- C2 (amended): round-trip identity holds for the reserved set the code
    actually uses — the six names `global, printers, print$, homes,
    netlogon, profiles` hard-coded in `_rebuild_config_content`, without
    `main`.  If every section-header line of the document names one of
    those six sections, `rebuild(text, parse(text))` reproduces the text
    byte for byte. -/
theorem c2_reserved_roundtrip (content : Str)
    (h : ∀ raw ∈ pySplit '\n' content, isHeaderLine (pyStrip raw) →
      headerName (pyStrip raw) ∈ reservedRebuild) :
    rebuild_config_content content (parse_shares content) = content := by
  have happ : rebuildAppendix (parse_shares content) = [] := by
    apply rebuildAppendix_reserved
    intro nc hnc
    obtain ⟨raw, hr, hh, _, hn⟩ := parse_name_from_header hnc
    rw [hn]
    exact h raw hr hh
  rw [rebuild_config_content, rebuildLines_id _ h, happ, List.append_nil, pyJoin_pySplit]

/-- C2 counterexample: `main` is in the spec's reserved set but not in the
    rebuilder's list, so a document holding only a `[main]` section is not
    reproduced byte for byte — its block is dropped and re-emitted in the
    appendix with different indentation. -/
theorem c2_counterexample :
    rebuild_config_content ("[main]\npath = /a".toList)
        (parse_shares ("[main]\npath = /a".toList)) ≠ "[main]\npath = /a".toList := by
  decide

theorem c2_witness :
    (∀ raw ∈ pySplit '\n' ("[global]\nworkgroup = W\n[printers]\npath = /var/tmp".toList),
      isHeaderLine (pyStrip raw) → headerName (pyStrip raw) ∈ reservedRebuild) ∧
    rebuild_config_content ("[global]\nworkgroup = W\n[printers]\npath = /var/tmp".toList)
        (parse_shares ("[global]\nworkgroup = W\n[printers]\npath = /var/tmp".toList)) =
      "[global]\nworkgroup = W\n[printers]\npath = /var/tmp".toList :=
  ⟨by decide, c2_reserved_roundtrip _ (by decide)⟩

/-- C3 (amended): the guard does not protect the name `global`.  Because
    the parser skips every `[global]` header, `global` is never a key of
    any parsed map, so `user_share_exists` answers false and
    `add_user_share(content, "global", ...)` reports success for every
    document and settings — the AlreadyExists-style failure the spec
    requires never happens.  The written document still contains no
    parseable section named `global`: the appendix loop of the rebuild
    skips reserved names, and the parser skips `[global]` headers. -/
theorem c3_add_global_succeeds (content p b w g cm dm : Str) :
    (add_user_share content ("global".toList) p b w g cm dm).1 = true ∧
    dlookup ("global".toList)
      (parse_shares (add_user_share content ("global".toList) p b w g cm dm).2) = none := by
  constructor
  · have hex : user_share_exists content ("global".toList) = false := by
      rw [user_share_exists, hasKey, global_not_parsed]
      rfl
    rw [add_user_share, hex]
    rfl
  · exact global_not_parsed _

theorem c3_witness :
    (add_user_share ("[eric]\npath = /a".toList) ("global".toList) ("/tmp".toList)
        ("yes".toList) ("yes".toList) ("no".toList) ("0660".toList) ("0770".toList)).1 =
      true ∧
    dlookup ("global".toList)
      (parse_shares (add_user_share ("[eric]\npath = /a".toList) ("global".toList)
        ("/tmp".toList) ("yes".toList) ("yes".toList) ("no".toList) ("0660".toList)
        ("0770".toList)).2) = none :=
  c3_add_global_succeeds ("[eric]\npath = /a".toList) ("/tmp".toList) ("yes".toList)
    ("yes".toList) ("no".toList) ("0660".toList) ("0770".toList)

/-- C3 counterexample: on a concrete document, adding the reserved name
    `global` reports success instead of the failure the spec demands. -/
theorem c3_counterexample :
    (add_user_share ("[printers]\ncomment = x".toList) ("global".toList) ("/srv/g".toList)
      ("yes".toList) ("yes".toList) ("no".toList) ("0660".toList) ("0770".toList)).1 =
      true := by
  decide

/-- C4 (amended): `remove_user_share` succeeds exactly when the username
    is a key of the *full* parsed map — reserved sections such as
    `printers` included, contrary to the spec's user-share-only test.
    For a well-formed document and a non-reserved username, on success
    the written document parses back, pointwise, to the original map
    with that section deleted. -/
theorem c4_remove_semantics (content u : Str) (hwf : wfDoc content)
    (hu : u ∉ reservedRebuild) :
    (remove_user_share content u).1 = hasKey u (parse_shares content) ∧
    ∀ n, dlookup n (parse_shares (remove_user_share content u).2) =
      dlookup n (remove_share_map (parse_shares content) u) := by
  by_cases hk : user_share_exists content u = true
  · have h1 : remove_user_share content u =
        (true, rebuild_config_content content (remove_share_map (parse_shares content) u)) := by
      rw [remove_user_share, if_neg (fun hh => hh hk)]
      rw [remove_share_map]
    have hops1 : ∀ op ∈ [ShareOp.remove u], cleanOp op := by
      intro op hop
      rw [List.mem_singleton] at hop
      rw [hop]
      exact hu
    constructor
    · rw [h1]
      rw [user_share_exists] at hk
      rw [hk]
    · intro n
      rw [h1]
      have e : applyOps [ShareOp.remove u] (parse_shares content) =
          remove_share_map (parse_shares content) u := rfl
      rw [← e]
      exact parse_rebuild_pointwise content _ hwf
        (cleanShares_applyOps (parse_shares_cleanShares content hwf) hops1)
        (fun m hm => dlookup_applyOps_reserved hops1 hm (parse_shares content)) n
  · have h0 : user_share_exists content u = false := by simpa using hk
    have h1 : remove_user_share content u = (false, content) := by
      rw [remove_user_share, if_pos hk]
    rw [user_share_exists] at h0
    constructor
    · rw [h1]
      exact h0.symm
    · intro n
      rw [h1]
      rw [remove_share_map, if_neg (by simp [h0])]

/-- C4 counterexample: removing the reserved section `printers` reports
    success, where the spec requires failure. -/
theorem c4_counterexample :
    (remove_user_share ("[printers]\npath = /var/tmp".toList) ("printers".toList)).1 =
      true := by
  decide

theorem c4_witness :
    wfDoc ("[printers]\np = 1\n[eric]\npath = /a".toList) ∧
    "eric".toList ∉ reservedRebuild ∧
    ((remove_user_share ("[printers]\np = 1\n[eric]\npath = /a".toList) ("eric".toList)).1 =
      hasKey ("eric".toList) (parse_shares ("[printers]\np = 1\n[eric]\npath = /a".toList)) ∧
    ∀ n, dlookup n (parse_shares
        (remove_user_share ("[printers]\np = 1\n[eric]\npath = /a".toList) ("eric".toList)).2) =
      dlookup n (remove_share_map
        (parse_shares ("[printers]\np = 1\n[eric]\npath = /a".toList)) ("eric".toList))) :=
  ⟨Or.inl (by decide), by decide,
    c4_remove_semantics ("[printers]\np = 1\n[eric]\npath = /a".toList) ("eric".toList)
      (Or.inl (by decide)) (by decide)⟩

/-- C5 (amended): the parser *does* special-case `[global]` — every line
    whose stripped form starts with `[global]` is skipped outright, so no
    document whatsoever parses to a map containing a section named
    `global`, key/value lines under the header notwithstanding. -/
theorem c5_global_never_parsed (content : Str) :
    dlookup ("global".toList) (parse_shares content) = none :=
  global_not_parsed content

/-- C5 counterexample: a `[global]` section with a `key = value` line
    parses to the empty map, not to a map with a `global` section. -/
theorem c5_counterexample :
    parse_shares ("[global]\nworkgroup = WORKGROUP".toList) = [] := by
  decide

/-- C6 (amended): the freshness test is membership in the *full* parsed
    map, not just the user shares.  Under that test — and for clean data
    on a well-formed document — `add_user_share` succeeds, and the
    written document's section for the new username is exactly the six
    fixed pairs `path, valid users = username, read only = no,
    browseable, create mask, directory mask` in that order, with the
    defaults `yes`, `0660`, `0770` built into the signature. -/
theorem c6_add_postcondition (content u p b w g cm dm : Str) (hwf : wfDoc content)
    (hcl : cleanOp (ShareOp.add u p b w g cm dm))
    (hfresh : hasKey u (parse_shares content) = false) :
    (add_user_share content u p b w g cm dm).1 = true ∧
    dlookup u (parse_shares (add_user_share content u p b w g cm dm).2) =
      some (newShareConfig u p b cm dm) := by
  have h1 : add_user_share content u p b w g cm dm =
      (true, rebuild_config_content content
        (dinsert u (newShareConfig u p b cm dm) (parse_shares content))) := by
    rw [add_user_share, if_neg (by simp [user_share_exists, hfresh])]
  constructor
  · rw [h1]
  · rw [h1]
    have e : applyOps [ShareOp.add u p b w g cm dm] (parse_shares content) =
        dinsert u (newShareConfig u p b cm dm) (parse_shares content) := by
      show add_share_map (parse_shares content) u p b cm dm = _
      rw [add_share_map, if_neg (by simp [hfresh])]
    have hops1 : ∀ op ∈ [ShareOp.add u p b w g cm dm], cleanOp op := by
      intro op hop
      rw [List.mem_singleton] at hop
      rw [hop]
      exact hcl
    rw [← e]
    rw [parse_rebuild_pointwise content _ hwf
      (cleanShares_applyOps (parse_shares_cleanShares content hwf) hops1)
      (fun m hm => dlookup_applyOps_reserved hops1 hm (parse_shares content)) u]
    rw [e]
    exact dlookup_dinsert u _ (parse_shares content)

/-- C6 counterexample: `printers` is present only as a reserved section,
    so it is fresh in the claim's user-share sense, yet `add_user_share`
    fails instead of inserting the six-key section. -/
theorem c6_counterexample :
    (add_user_share ("[printers]\npath = /var/tmp".toList) ("printers".toList)
      ("/x".toList) ("yes".toList) ("yes".toList) ("no".toList) ("0660".toList)
      ("0770".toList)).1 = false := by
  decide

theorem c6_witness :
    wfDoc ("[printers]\npath = /var/tmp".toList) ∧
    cleanOp (ShareOp.add ("joao".toList) ("/srv/joao".toList) ("yes".toList)
      ("yes".toList) ("no".toList) ("0660".toList) ("0770".toList)) ∧
    hasKey ("joao".toList) (parse_shares ("[printers]\npath = /var/tmp".toList)) = false ∧
    ((add_user_share ("[printers]\npath = /var/tmp".toList) ("joao".toList)
        ("/srv/joao".toList) ("yes".toList) ("yes".toList) ("no".toList) ("0660".toList)
        ("0770".toList)).1 = true ∧
      dlookup ("joao".toList) (parse_shares (add_user_share
        ("[printers]\npath = /var/tmp".toList) ("joao".toList) ("/srv/joao".toList)
        ("yes".toList) ("yes".toList) ("no".toList) ("0660".toList) ("0770".toList)).2) =
        some (newShareConfig ("joao".toList) ("/srv/joao".toList) ("yes".toList)
          ("0660".toList) ("0770".toList))) :=
  ⟨Or.inl (by decide), by decide, by decide,
    c6_add_postcondition ("[printers]\npath = /var/tmp".toList) ("joao".toList)
      ("/srv/joao".toList) ("yes".toList) ("yes".toList) ("no".toList) ("0660".toList)
      ("0770".toList) (Or.inl (by decide)) (by decide) (by decide)⟩

/-- C7 (confirmed): update merges the patch into the existing section —
    the updated section's value is `dupdate c patch` (CPython
    `dict.update`), in which every patch key carries the patch's value,
    every other key keeps its original value (so no key is removed), and
    sections other than the username are untouched. -/
theorem c7_update_merge (m : Shares) (u : Str) (patch : Cfg) (c : Cfg)
    (hp : (dkeys patch).Nodup) (hc : dlookup u m = some c) :
    dlookup u (update_share_map m u patch) = some (dupdate c patch) ∧
    (∀ k v, dlookup k patch = some v → dlookup k (dupdate c patch) = some v) ∧
    (∀ k, dlookup k patch = none → dlookup k (dupdate c patch) = dlookup k c) ∧
    ∀ n, n ≠ u → dlookup n (update_share_map m u patch) = dlookup n m := by
  have hk : hasKey u m = true := by rw [hasKey, hc]; rfl
  have he : update_share_map m u patch = dmodify u (fun cc => dupdate cc patch) m := by
    rw [update_share_map, if_pos hk]
  refine ⟨?_, ?_, ?_, ?_⟩
  · rw [he, dlookup_dmodify_self, hc]
    rfl
  · intro k v hv
    exact dlookup_dupdate_some hp hv c
  · intro k hn
    exact dlookup_dupdate_none hn c
  · intro n hn
    rw [he, dlookup_dmodify_ne hn]

theorem c7_witness :
    (dkeys [(("browseable".toList : Str), ("no".toList : Str))]).Nodup ∧
    dlookup ("eric".toList)
        [(("eric".toList : Str), [(("path".toList : Str), ("/h".toList : Str)),
          ("valid users".toList, "eric".toList)])] =
      some [(("path".toList : Str), ("/h".toList : Str)),
        ("valid users".toList, "eric".toList)] ∧
    (dlookup ("eric".toList) (update_share_map
        [(("eric".toList : Str), [(("path".toList : Str), ("/h".toList : Str)),
          ("valid users".toList, "eric".toList)])]
        ("eric".toList) [("browseable".toList, "no".toList)]) =
      some (dupdate [(("path".toList : Str), ("/h".toList : Str)),
        ("valid users".toList, "eric".toList)] [("browseable".toList, "no".toList)]) ∧
    (∀ k v, dlookup k [(("browseable".toList : Str), ("no".toList : Str))] = some v →
      dlookup k (dupdate [(("path".toList : Str), ("/h".toList : Str)),
        ("valid users".toList, "eric".toList)] [("browseable".toList, "no".toList)]) =
        some v) ∧
    (∀ k, dlookup k [(("browseable".toList : Str), ("no".toList : Str))] = none →
      dlookup k (dupdate [(("path".toList : Str), ("/h".toList : Str)),
        ("valid users".toList, "eric".toList)] [("browseable".toList, "no".toList)]) =
        dlookup k [(("path".toList : Str), ("/h".toList : Str)),
          ("valid users".toList, "eric".toList)]) ∧
    ∀ n, n ≠ "eric".toList → dlookup n (update_share_map
        [(("eric".toList : Str), [(("path".toList : Str), ("/h".toList : Str)),
          ("valid users".toList, "eric".toList)])]
        ("eric".toList) [("browseable".toList, "no".toList)]) =
      dlookup n [(("eric".toList : Str), [(("path".toList : Str), ("/h".toList : Str)),
        ("valid users".toList, "eric".toList)])]) :=
  ⟨by decide, by decide,
    c7_update_merge _ ("eric".toList) [("browseable".toList, "no".toList)] _
      (by decide) (by decide)⟩

/-- C8 (amended): the parser takes the section name as `line[1:-1]` of
    the stripped line with *no inner trimming*: when the stripped line is
    `[` ++ inner ++ `]` (and is not `[global]`-prefixed), the opened
    section is named exactly `inner`, surrounding whitespace included —
    `[ eric ]` opens a section named `" eric "`, not `"eric"`. -/
theorem c8_header_name_untrimmed (st : ParseState) (raw inner : Str)
    (h1 : pyStrip raw = '[' :: inner ++ [']'])
    (h2 : ¬ isGlobalPre (pyStrip raw)) :
    (parseStep st raw).cur = inner := by
  have hh : isHeaderLine (pyStrip raw) := by
    rw [h1]
    exact isHeaderLine_bracket inner
  rw [parseStep_header hh h2]
  show headerName (pyStrip raw) = inner
  rw [h1]
  exact headerName_bracket inner

/-- C8 counterexample: parsing `[ eric ]` records the section under
    `" eric "`; no section named `eric` exists. -/
theorem c8_counterexample :
    dlookup ("eric".toList) (parse_shares ("[ eric ]\npath = /a".toList)) = none ∧
    dlookup (" eric ".toList) (parse_shares ("[ eric ]\npath = /a".toList)) =
      some [("path".toList, "/a".toList)] := by
  decide

theorem c8_witness :
    (parseStep ⟨[], [], []⟩ ("[ eric ]".toList)).cur = " eric ".toList :=
  c8_header_name_untrimmed ⟨[], [], []⟩ ("[ eric ]".toList) (" eric ".toList)
    (by decide) (by decide)

/-- C9 (confirmed): `writable` and `guest_ok` are accepted and ignored —
    the result of `add_user_share` is literally independent of both, and
    the section it builds contains neither a `writable` nor a `guest ok`
    key. -/
theorem c9_writable_guest_ignored (content u p b w g w2 g2 cm dm : Str) :
    add_user_share content u p b w g cm dm = add_user_share content u p b w2 g2 cm dm ∧
    dlookup ("writable".toList) (newShareConfig u p b cm dm) = none ∧
    dlookup ("guest ok".toList) (newShareConfig u p b cm dm) = none := by
  refine ⟨rfl, ?_, ?_⟩
  · rw [newShareConfig, dlookup_cons, if_neg (by decide), dlookup_cons,
      if_neg (by decide), dlookup_cons, if_neg (by decide), dlookup_cons,
      if_neg (by decide), dlookup_cons, if_neg (by decide), dlookup_cons,
      if_neg (by decide), dlookup_nil]
  · rw [newShareConfig, dlookup_cons, if_neg (by decide), dlookup_cons,
      if_neg (by decide), dlookup_cons, if_neg (by decide), dlookup_cons,
      if_neg (by decide), dlookup_cons, if_neg (by decide), dlookup_cons,
      if_neg (by decide), dlookup_nil]

/-- C10 (confirmed): a `[global]` header met mid-file leaves the parser
    state untouched — the current section stays open — and the next
    `key = value` line is recorded into that still-open section's
    mapping. -/
theorem c10_global_does_not_close (st : ParseState) (g kvl : Str)
    (h1 : isGlobalPre (pyStrip g)) (h2 : '=' ∉ pyStrip g)
    (h3 : ¬ isHeaderLine (pyStrip kvl)) (h4 : '=' ∈ pyStrip kvl) (h5 : st.cur ≠ []) :
    parseStep st g = st ∧
    parseStep (parseStep st g) kvl =
      { st with cfg := dinsert (parseKey (pyStrip kvl)) (parseVal (pyStrip kvl)) st.cfg } := by
  have hg : parseStep st g = st := by
    apply parseStep_skip
    · intro hh
      exact hh.2 h1
    · intro hh
      exact h2 hh.2
  refine ⟨hg, ?_⟩
  rw [hg]
  exact parseStep_kv (fun hh => h3 hh.1) h5 h4

theorem c10_witness :
    parseStep ⟨[], "eric".toList, [("path".toList, "/a".toList)]⟩ ("[global]".toList) =
      ⟨[], "eric".toList, [("path".toList, "/a".toList)]⟩ ∧
    parseStep (parseStep ⟨[], "eric".toList, [("path".toList, "/a".toList)]⟩
        ("[global]".toList)) ("workgroup = WG".toList) =
      { (⟨[], "eric".toList, [("path".toList, "/a".toList)]⟩ : ParseState) with
        cfg := dinsert (parseKey (pyStrip ("workgroup = WG".toList)))
          (parseVal (pyStrip ("workgroup = WG".toList)))
          [("path".toList, "/a".toList)] } :=
  c10_global_does_not_close ⟨[], "eric".toList, [("path".toList, "/a".toList)]⟩
    ("[global]".toList) ("workgroup = WG".toList)
    (by decide) (by decide) (by decide) (by decide) (by decide)
